import Mathlib

/-!
# xmlparser: tree builder and path resolver

A shallow embedding of `xmlparser.go`.

* Go `string` values are modelled as `List Char` (`GoString`): the strings the
  XML tokenizer hands out are valid UTF-8, and every string operation the
  program applies to a pattern (`/`, `@`, `[`, `]`, decimal digits) looks at
  ASCII characters only.
* A Go `error` is modelled by its message: `none` is `nil`, `some msg` is an
  error whose `Error()` is `msg`.
* A Go function returning `(XMLTag, error)` returns a pair here, so that the
  value handed back next to an error stays visible.
* `map[string]string` is an association list with unique keys; `none` is the
  `nil` map.
* `xml.Decoder` is the list of tokens it still has to deliver together with
  the error it reports once they are used up (`"EOF"` for a clean end).
-/

set_option autoImplicit false

/-- Go `string`, as its sequence of characters. -/
abbrev GoString := List Char

/-- Go `error`: `none` is `nil`, `some msg` an error with message `msg`. -/
abbrev GoError := Option GoString

/-- Go `map[string]string`; `none` is the `nil` map. -/
abbrev GoMap := Option (List (GoString × GoString))

/-- The struct `XMLTag` of `xmlparser.go`. -/
structure XMLTag where
  Name : GoString
  Attributes : GoMap
  Content : GoString
  Children : List XMLTag

/-- The zero value `XMLTag{}`. -/
def XMLTag.zero : XMLTag :=
  { Name := [], Attributes := none, Content := [], Children := [] }

/-- Reading `m[k]` with the comma-ok form: `none` when the key is absent
(always so for the `nil` map). -/
def GoMap.get (m : GoMap) (k : GoString) : Option GoString :=
  match m with
  | none => none
  | some l => l.lookup k

/-- The assignment `m[k] = v` on the entries of a map: an existing key keeps
its place and takes the new value, a new key is added. -/
def entriesSet (l : List (GoString × GoString)) (k v : GoString) :
    List (GoString × GoString) :=
  if l.any (fun p => p.1 == k) then
    l.map (fun p => if p.1 == k then (k, v) else p)
  else
    l ++ [(k, v)]

/-- The assignment `m[k] = v`; the program only assigns to maps it has made. -/
def GoMap.set (m : GoMap) (k v : GoString) : GoMap :=
  match m with
  | none => none
  | some l => some (entriesSet l k v)

namespace strings

/-- Go `strings.HasPrefix`. -/
def HasPrefix (s p : GoString) : Bool := p.isPrefixOf s

/-- Go `strings.HasSuffix`. -/
def HasSuffix (s p : GoString) : Bool := p.isSuffixOf s

/-- Go `strings.TrimPrefix`. -/
def TrimPrefix (s p : GoString) : GoString :=
  if HasPrefix s p then s.drop p.length else s

/-- Go `strings.Trim`: all leading and trailing characters of `cutset` are
removed. -/
def Trim (s cutset : GoString) : GoString :=
  (s.dropWhile (fun c => cutset.contains c)).rdropWhile (fun c => cutset.contains c)

/-- Go `strings.Split` for a separator of one character. -/
def Split (s : GoString) (sep : Char) : List GoString := s.splitOn sep

/-- Go `unicode.IsSpace`. -/
def IsSpace (c : Char) : Bool :=
  let n := c.toNat
  (9 ≤ n && n ≤ 13) || n == 32 || n == 0x85 || n == 0xA0 || n == 0x1680 ||
  (0x2000 ≤ n && n ≤ 0x200A) || n == 0x2028 || n == 0x2029 || n == 0x202F ||
  n == 0x205F || n == 0x3000

/-- Go `strings.TrimSpace`. -/
def TrimSpace (s : GoString) : GoString :=
  (s.dropWhile IsSpace).rdropWhile IsSpace

end strings

namespace strconv

/-- Largest value of Go `int` (64 bits). -/
def maxInt : Int := 2 ^ 63 - 1

/-- Smallest value of Go `int` (64 bits). -/
def minInt : Int := -(2 ^ 63)

/-- The value of a run of decimal digits, most significant first; `none` when
a character is not a digit. -/
def parseDigits : Nat → GoString → Option Nat
  | acc, [] => some acc
  | acc, c :: cs =>
    if 48 ≤ c.toNat ∧ c.toNat ≤ 57 then parseDigits (acc * 10 + (c.toNat - 48)) cs
    else none

/-- Go `strconv.Atoi`: an optional sign, then at least one decimal digit, and
a value that fits `int`; `none` stands for the error it returns otherwise. -/
def Atoi (s : GoString) : Option Int :=
  let neg := s.head? == some '-'
  let body := if s.head? == some '-' || s.head? == some '+' then s.tail else s
  if body.isEmpty then none
  else
    match parseDigits 0 body with
    | none => none
    | some n =>
      let v : Int := if neg then -(n : Int) else (n : Int)
      if minInt ≤ v ∧ v ≤ maxInt then some v else none

/-- The `%d` verb of `fmt` on an `int`. -/
def formatInt (i : Int) : GoString :=
  if i < 0 then '-' :: Nat.toDigits 10 i.natAbs else Nat.toDigits 10 i.toNat

end strconv

/-- The source's `parsePattern`. -/
def parsePattern (pattern : GoString) : List GoString :=
  let trimmedPattern := strings.Trim pattern "/".toList
  let patternParts := strings.Split trimmedPattern '/'
  patternParts

/-- The source's `parseIndex`. -/
def parseIndex (indexString : GoString) : Int × GoError :=
  match strconv.Atoi indexString with
  | none => (0, some ("неверный формат индекса: ".toList ++ indexString))
  | some index => (index, none)

/-- The source's `findTagByPattern`. -/
def findTagByPattern (tag : XMLTag) : List GoString → XMLTag × GoError
  | [] => (tag, none)
  | currentPattern :: rest =>
    if strings.HasPrefix currentPattern "@".toList then
      let attributeName := strings.TrimPrefix currentPattern "@".toList
      match tag.Attributes.get attributeName with
      | some value =>
        ({ Name := [], Attributes := none, Content := value, Children := [] }, none)
      | none =>
        (XMLTag.zero, some ("атрибут ".toList ++ attributeName ++ " не найден".toList))
    else if strings.HasPrefix currentPattern "[".toList
        && strings.HasSuffix currentPattern "]".toList then
      let indexString := strings.Trim currentPattern "[]".toList
      match parseIndex indexString with
      | (_, some err) => (XMLTag.zero, some err)
      | (index, none) =>
        if h : 0 ≤ index ∧ index < (tag.Children.length : Int) then
          findTagByPattern
            (tag.Children.get ⟨index.toNat, by omega⟩) rest
        else
          (XMLTag.zero,
            some ("тег с индексом ".toList ++ strconv.formatInt index ++ " не найден".toList))
    else
      match tag.Children.find? (fun child => child.Name == currentPattern) with
      | some child => findTagByPattern child rest
      | none =>
        (XMLTag.zero, some ("тег ".toList ++ currentPattern ++ " не найден".toList))

/-- The source's `searchInTag`. -/
def searchInTag (rootTag : XMLTag) (pattern : GoString) : XMLTag × GoError :=
  if rootTag.Name == [] then
    (XMLTag.zero, some "ошибка парсинга XML".toList)
  else
    let patternParts := parsePattern pattern
    match findTagByPattern rootTag patternParts with
    | (_, some err) => (XMLTag.zero, some err)
    | (result, none) => (result, none)

/-- The source's method `XMLTag.Find`. -/
def XMLTag.Find (tag : XMLTag) (pattern : GoString) : XMLTag :=
  (searchInTag tag pattern).1

namespace xml

/-- Go `xml.Attr`; of its name only `Name.Local` is read by the program. -/
structure Attr where
  Name : GoString
  Value : GoString

/-- Go `xml.StartElement`; of its name only `Name.Local` is read. -/
structure StartElement where
  Name : GoString
  Attr : List Attr

/-- Go `xml.Token`: the token kinds the program tells apart; comments,
processing instructions and directives are `Other`. -/
inductive Token where
  | StartElement (elem : xml.StartElement)
  | EndElement (Name : GoString)
  | CharData (data : GoString)
  | Other

/-- Go `xml.Decoder`, seen from its caller: the tokens still to come and the
error reported after the last of them (with message `"EOF"` at a clean end). -/
structure Decoder where
  tokens : List Token
  err : GoString

/-- Go `Decoder.Token`: the next token, or the error, and the decoder
afterwards. -/
def Decoder.Token (d : Decoder) : Except GoString xml.Token × Decoder :=
  match d.tokens with
  | [] => (.error d.err, d)
  | t :: ts => (.ok t, { d with tokens := ts })

end xml

/-- The attribute loop of `ParseXML` and `parseXMLElement`: a fresh map that
receives `attr.Name.Local -> attr.Value` for each attribute in turn. -/
def attrMap (attrs : List xml.Attr) : GoMap :=
  attrs.foldl (fun m attr => m.set attr.Name attr.Value) (some [])

/-- The source's `serializeStartElement`. -/
def serializeStartElement (elem : xml.StartElement) : GoString :=
  let result := "<".toList ++ elem.Name
  let result := elem.Attr.foldl
    (fun result attr => result ++ (" ".toList ++ attr.Name ++ "=\"".toList ++ attr.Value ++ "\"".toList))
    result
  result ++ ">".toList

/-- The first lines of `parseXMLElement`: the tag named after the start
element, with its attribute map filled. -/
def startTag (startElement : xml.StartElement) : XMLTag :=
  { Name := startElement.Name, Attributes := attrMap startElement.Attr,
    Content := [], Children := [] }

/-- The `for` loop of `parseXMLElement` on the tag under construction and its
content builder. The recursive call `parseXMLElement(decoder, elem)` is this
loop started on `startTag elem` with an empty builder. Each round uses one
unit of fuel; `none` means the fuel ran out. -/
def parseXMLElementLoop :
    Nat → xml.Decoder → XMLTag → GoString → Option ((XMLTag × GoError) × xml.Decoder)
  | 0, _, _, _ => none
  | fuel + 1, decoder, tag, contentBuilder =>
    match decoder.Token with
    | (.error err, decoder) => some ((XMLTag.zero, some err), decoder)
    | (.ok token, decoder) =>
      match token with
      | .StartElement elem =>
        match parseXMLElementLoop fuel decoder (startTag elem) [] with
        | none => none
        | some ((_, some err), decoder) => some ((XMLTag.zero, some err), decoder)
        | some ((childTag, none), decoder) =>
          parseXMLElementLoop fuel decoder
            { tag with Children := tag.Children ++ [childTag] } contentBuilder
      | .CharData elem =>
        let content := strings.TrimSpace elem
        if content.length > 0 then
          parseXMLElementLoop fuel decoder tag (contentBuilder ++ content)
        else
          parseXMLElementLoop fuel decoder tag contentBuilder
      | .EndElement name =>
        if name == tag.Name then
          some (({ tag with Content := contentBuilder }, none), decoder)
        else
          parseXMLElementLoop fuel decoder tag contentBuilder
      | .Other => parseXMLElementLoop fuel decoder tag contentBuilder

/-- The source's `parseXMLElement`. -/
def parseXMLElement (fuel : Nat) (decoder : xml.Decoder) (startElement : xml.StartElement) :
    Option ((XMLTag × GoError) × xml.Decoder) :=
  parseXMLElementLoop fuel decoder (startTag startElement) []

/-- The `for` loop of `ParseXML` on `rootTag` and `contentBuilder`, followed by
the final assignment of the content. Each round uses one unit of fuel; `none`
means the fuel ran out. -/
def ParseXMLLoop : Nat → xml.Decoder → XMLTag → GoString → Option XMLTag
  | 0, _, _, _ => none
  | fuel + 1, decoder, rootTag, contentBuilder =>
    match decoder.Token with
    | (.error err, _) =>
      if err == "EOF".toList then some { rootTag with Content := contentBuilder }
      else some XMLTag.zero
    | (.ok token, decoder) =>
      match token with
      | .StartElement elem =>
        if rootTag.Name == [] then
          ParseXMLLoop fuel decoder
            { rootTag with Name := elem.Name, Attributes := attrMap elem.Attr } contentBuilder
        else
          match parseXMLElement fuel decoder elem with
          | none => none
          | some ((_, some _), _) => some XMLTag.zero
          | some ((childTag, none), decoder) =>
            ParseXMLLoop fuel decoder
              { rootTag with Children := rootTag.Children ++ [childTag] }
              (contentBuilder ++ serializeStartElement elem ++ childTag.Content
                ++ ("</".toList ++ elem.Name ++ ">".toList))
      | .CharData elem =>
        let content := strings.TrimSpace elem
        if content.length > 0 then
          ParseXMLLoop fuel decoder rootTag (contentBuilder ++ content)
        else
          ParseXMLLoop fuel decoder rootTag contentBuilder
      | _ => ParseXMLLoop fuel decoder rootTag contentBuilder

/-- The source's `ParseXML`, on the decoder made from the document text. One
round of either loop reads one token, so one unit of fuel more than there are
tokens is enough (`ParseXML_isSome`). -/
def ParseXML (decoder : xml.Decoder) : Option XMLTag :=
  ParseXMLLoop (decoder.tokens.length + 1) decoder XMLTag.zero []

/-- A piece of a document: a text segment, or an element with the attributes of
its opening tag and the pieces between its tags. -/
inductive Item where
  | text (s : GoString)
  | elem (name : GoString) (attrs : List xml.Attr) (body : List Item)

mutual
/-- The depth-first token sequence of a piece: a text token, or the start
element, the tokens of the body in order, and the matching end element. -/
def Item.tokens : Item → List xml.Token
  | .text s => [.CharData s]
  | .elem name attrs body =>
    .StartElement ⟨name, attrs⟩ :: (Item.tokensList body ++ [.EndElement name])
/-- The token sequences of the pieces of a body, one after the other. -/
def Item.tokensList : List Item → List xml.Token
  | [] => []
  | i :: rest => Item.tokens i ++ Item.tokensList rest
end

/-! ## Documents and the trees the spec expects for them -/

/-- The content the spec gives a node below the root: the whitespace-trimmed
text segments lying directly in the body, the non-empty ones, in document
order; child elements contribute nothing. -/
def directText : List Item → GoString
  | [] => []
  | .text s :: rest =>
    (if (strings.TrimSpace s).length > 0 then strings.TrimSpace s else []) ++ directText rest
  | .elem _ _ _ :: rest => directText rest

mutual
/-- The node expected for a piece below the root (none for a text segment). -/
def Item.nodes : Item → List XMLTag
  | .text _ => []
  | .elem name attrs body =>
    [{ Name := name, Attributes := attrMap attrs, Content := directText body,
       Children := Item.nodesList body }]
/-- The nodes expected for the elements of a body, in document order. -/
def Item.nodesList : List Item → List XMLTag
  | [] => []
  | i :: rest => Item.nodes i ++ Item.nodesList rest
end

mutual
/-- `Item.EveryLevel P i t`: `i` is an element, `P` relates it to the node `t`,
and the children of `t` are, in document order, nodes for the elements lying
directly inside `i`, each related in the same way at every level. -/
def Item.EveryLevel (P : GoString → List xml.Attr → List Item → XMLTag → Prop) :
    Item → XMLTag → Prop
  | .text _, _ => False
  | .elem name attrs body, t => P name attrs body t ∧ Item.EveryLevelList P body t.Children
/-- The same for the elements of a body against a list of nodes. -/
def Item.EveryLevelList (P : GoString → List xml.Attr → List Item → XMLTag → Prop) :
    List Item → List XMLTag → Prop
  | [], ts => ts = []
  | .text _ :: rest, ts => Item.EveryLevelList P rest ts
  | .elem name attrs body :: rest, ts =>
    match ts with
    | [] => False
    | t :: ts => Item.EveryLevel P (.elem name attrs body) t ∧ Item.EveryLevelList P rest ts
end

/-- The opening tag the spec reconstructs for a child of the root:
`<name attr="value" ...>`, the attributes in their original order. -/
def openTag (name : GoString) (attrs : List xml.Attr) : GoString :=
  "<".toList ++ name
    ++ (attrs.map (fun a => " ".toList ++ a.Name ++ "=\"".toList ++ a.Value ++ "\"".toList)).flatten
    ++ ">".toList

/-- The piece the spec adds to the root's content for one item directly under
the root: for a text segment its trimmed text when that is non-empty, for a
child element its reconstructed opening tag, the child's content (its direct
text) and its closing tag. -/
def rootPiece : Item → GoString
  | .text s => if (strings.TrimSpace s).length > 0 then strings.TrimSpace s else []
  | .elem name attrs body =>
    openTag name attrs ++ directText body ++ ("</".toList ++ name ++ ">".toList)

/-- The root content of the spec: the pieces in document order. -/
def rootContent (body : List Item) : GoString := (body.map rootPiece).flatten

/-- Whether a piece is an element. -/
def Item.isElem : Item → Bool
  | .text _ => false
  | .elem _ _ _ => true

/-- The direct text of each element of a body, in document order. -/
def childTexts : List Item → List GoString
  | [] => []
  | .text _ :: rest => childTexts rest
  | .elem _ _ body :: rest => directText body :: childTexts rest

mutual
/-- Every element name in the piece is non-empty and the attributes of every
opening tag have pairwise distinct names. -/
def Item.wellNamed : Item → Bool
  | .text _ => true
  | .elem name attrs body =>
    !name.isEmpty && decide ((attrs.map (fun a => a.Name)).Nodup) && Item.wellNamedList body
/-- The same for every piece of a body. -/
def Item.wellNamedList : List Item → Bool
  | [] => true
  | i :: rest => Item.wellNamed i && Item.wellNamedList rest
end

/-- The shape relation of one level: the node is named after the element and
its attribute map has exactly the name/value pairs of the opening tag. -/
def SameNameAndAttributes (name : GoString) (attrs : List xml.Attr) (_body : List Item)
    (t : XMLTag) : Prop :=
  t.Name = name ∧ ∀ k v, t.Attributes.get k = some v ↔ (⟨k, v⟩ : xml.Attr) ∈ attrs

/-- The content relation of one level: the content of the node is the direct
text of the element. -/
def ContentIsDirectText (_name : GoString) (_attrs : List xml.Attr) (body : List Item)
    (t : XMLTag) : Prop :=
  t.Content = directText body

/-- The document `<a x="1"><b>hi</b><c/></a>`. -/
def exampleDoc : Item :=
  .elem "a".toList [⟨"x".toList, "1".toList⟩]
    [.elem "b".toList [] [.text "hi".toList], .elem "c".toList [] []]

/-- The tree of `exampleDoc`. -/
def exampleTree : XMLTag :=
  { Name := "a".toList, Attributes := some [("x".toList, "1".toList)],
    Content := "<b>hi</b><c></c>".toList,
    Children :=
      [{ Name := "b".toList, Attributes := some [], Content := "hi".toList, Children := [] },
       { Name := "c".toList, Attributes := some [], Content := [], Children := [] }] }

/-- The document `<a><b>x<c>y</c>z</b></a>`. -/
def nestedDoc : Item :=
  .elem "a".toList []
    [.elem "b".toList [] [.text "x".toList, .elem "c".toList [] [.text "y".toList],
      .text "z".toList]]

/-- The tree of `nestedDoc`. -/
def nestedTree : XMLTag :=
  { Name := "a".toList, Attributes := some [], Content := "<b>xz</b>".toList,
    Children :=
      [{ Name := "b".toList, Attributes := some [], Content := "xz".toList,
         Children :=
           [{ Name := "c".toList, Attributes := some [], Content := "y".toList,
              Children := [] }] }] }

/-- A childless node `b`. -/
def firstB : XMLTag :=
  { Name := "b".toList, Attributes := some [], Content := [], Children := [] }

/-- A node `b` with one child `d`. -/
def secondB : XMLTag :=
  { Name := "b".toList, Attributes := some [], Content := [],
    Children := [{ Name := "d".toList, Attributes := some [], Content := [], Children := [] }] }

/-- The tree of `<a><b/><b><d/></b></a>`: two children named `b`, of which
only the second has a child `d`. -/
def twoNamedB : XMLTag :=
  { Name := "a".toList, Attributes := some [], Content := "<b></b><b></b>".toList,
    Children := [firstB, secondB] }

/-- The node `c` of `exampleTree`. -/
def exampleC : XMLTag :=
  { Name := "c".toList, Attributes := some [], Content := [], Children := [] }

/-- The tree of `<a x=""/>`: the attribute `x` has the empty string as value. -/
def emptyAttrTree : XMLTag :=
  { Name := "a".toList, Attributes := some [("x".toList, [])], Content := [], Children := [] }

/-- The tree of `<a/>`: no attribute. -/
def noAttrTree : XMLTag :=
  { Name := "a".toList, Attributes := some [], Content := [], Children := [] }

/-- The stripping C14 words: one leading `/` is removed if there is one, then
one trailing `/` is removed if what is left ends with one. -/
def stripOneSlash (p : GoString) : GoString :=
  let q := if p.head? = some '/' then p.tail else p
  if q.getLast? = some '/' then q.dropLast else q

/-- Removal of all leading `/` characters. -/
def dropLeadingSlashes : GoString → GoString
  | [] => []
  | c :: s => if c = '/' then dropLeadingSlashes s else c :: s

/-- Removal of all leading and all trailing `/` characters. -/
def stripAllSlashes (p : GoString) : GoString :=
  (dropLeadingSlashes (dropLeadingSlashes p).reverse).reverse

/-- Splitting on `/` verbatim: the steps are the runs between the separators,
empty runs included. -/
def splitSlash : GoString → List GoString
  | [] => [[]]
  | c :: s =>
    if c = '/' then [] :: splitSlash s
    else
      match splitSlash s with
      | [] => [[c]]
      | step :: steps => (c :: step) :: steps

/-- The steps C14 words for a pattern: one separator stripped at each end,
then the split on `/`. -/
def parsePatternOneSlash (p : GoString) : List GoString :=
  splitSlash (stripOneSlash p)

/-- Whether a token is a start element. -/
def xml.Token.isStartElement : xml.Token → Bool
  | .StartElement _ => true
  | _ => false

/-- The trimmed non-empty text segments of a token stream, concatenated in
order. -/
def streamText : List xml.Token → GoString
  | [] => []
  | .CharData s :: rest =>
    (if (strings.TrimSpace s).length > 0 then strings.TrimSpace s else []) ++ streamText rest
  | _ :: rest => streamText rest

/-- A piece of a token stream at the outer level, after the first start
element: a single token, or a later start element together with the tokens
that follow it up to the end of its subtree and the node built for it. -/
inductive OuterPiece where
  | token (t : xml.Token)
  | element (elem : xml.StartElement) (inner : List xml.Token) (child : XMLTag)

/-- The tokens of an outer piece. -/
def OuterPiece.tokens : OuterPiece → List xml.Token
  | .token t => [t]
  | .element elem inner _ => .StartElement elem :: inner

/-- The tokens of a run of outer pieces, one after the other. -/
def outerTokens (pieces : List OuterPiece) : List xml.Token :=
  (pieces.map OuterPiece.tokens).flatten

/-- An outer piece is complete when it is a token other than a start element,
or a start element whose subtree is closed: `parseXMLElement`, run on the
tokens `inner` alone, reads all of them and returns `child` without error. -/
def OuterPiece.Complete : OuterPiece → Prop
  | .token t => t.isStartElement = false
  | .element elem inner child =>
    parseXMLElement (inner.length + 1) ⟨inner, "EOF".toList⟩ elem
      = some ((child, none), ⟨[], "EOF".toList⟩)

/-- The node an outer piece adds to the children of the root. -/
def OuterPiece.children : OuterPiece → List XMLTag
  | .token _ => []
  | .element _ _ child => [child]

/-- What an outer piece adds to the content of the root: the trimmed text of
a text token when it is non-empty, the reconstructed opening tag, the child's
content and the closing tag for an element, nothing for any other token. -/
def OuterPiece.content : OuterPiece → GoString
  | .token (.CharData s) =>
    if (strings.TrimSpace s).length > 0 then strings.TrimSpace s else []
  | .token _ => []
  | .element elem _ child =>
    openTag elem.Name elem.Attr ++ child.Content ++ ("</".toList ++ elem.Name ++ ">".toList)

/-! ## The path resolver -/

theorem findTagByPattern_name_step (node : XMLTag) (s : GoString) (rest : List GoString)
    (hat : strings.HasPrefix s "@".toList = false)
    (hbr : (strings.HasPrefix s "[".toList && strings.HasSuffix s "]".toList) = false) :
    findTagByPattern node (s :: rest) =
      match node.Children.find? (fun child => child.Name == s) with
      | some child => findTagByPattern child rest
      | none => (XMLTag.zero, some ("тег ".toList ++ s ++ " не найден".toList)) := by
  rw [findTagByPattern]
  simp only [hat, hbr, Bool.false_eq_true, if_false]

theorem find_first_named (s : GoString) (before after : List XMLTag) (c : XMLTag)
    (hc : c.Name = s) (hbefore : ∀ x ∈ before, x.Name ≠ s) :
    (before ++ c :: after).find? (fun child => child.Name == s) = some c := by
  induction before with
  | nil => simp [hc]
  | cons x xs ih =>
    have hx : x.Name ≠ s := hbefore x (by simp)
    have hxs : ∀ y ∈ xs, y.Name ≠ s := fun y hy => hbefore y (by simp [hy])
    simp [List.find?_cons, hx, ih hxs]

namespace strconv

theorem digitChar_toNat : ∀ m, m < 10 → (Nat.digitChar m).toNat = 48 + m := by
  decide

theorem parseDigits_digitChar (acc m : Nat) (hm : m < 10) (rest : GoString) :
    parseDigits acc (Nat.digitChar m :: rest) = parseDigits (acc * 10 + m) rest := by
  have h := digitChar_toNat m hm
  rw [parseDigits, if_pos (by omega)]
  congr 1
  omega

/-- What `Nat.toDigitsCore 10` puts in front of its accumulator: a non-empty run
of digit characters whose value is the number rendered. -/
theorem toDigitsCore_spec : ∀ (fuel n : Nat) (ds : GoString), n < fuel →
    ∃ L : GoString, Nat.toDigitsCore 10 fuel n ds = L ++ ds ∧ L ≠ [] ∧
      (∀ c ∈ L, 48 ≤ c.toNat ∧ c.toNat ≤ 57) ∧
      ∀ (acc : Nat) (rest : GoString),
        parseDigits acc (L ++ rest) = parseDigits (acc * 10 ^ L.length + n) rest := by
  intro fuel
  induction fuel with
  | zero => intro n ds h; omega
  | succ fuel ih =>
    intro n ds hn
    have hmod : n % 10 < 10 := Nat.mod_lt _ (by decide)
    have hd := digitChar_toNat (n % 10) hmod
    by_cases h0 : n / 10 = 0
    · refine ⟨[Nat.digitChar (n % 10)], ?_, by simp, ?_, ?_⟩
      · simp [Nat.toDigitsCore, h0]
      · intro c hc
        simp only [List.mem_singleton] at hc
        subst hc
        omega
      · intro acc rest
        simp only [List.singleton_append, List.length_singleton, pow_one]
        rw [parseDigits_digitChar acc _ hmod]
        congr 1
        omega
    · obtain ⟨L, hL, hne, hdig, hval⟩ := ih (n / 10) (Nat.digitChar (n % 10) :: ds) (by omega)
      refine ⟨L ++ [Nat.digitChar (n % 10)], ?_, by simp, ?_, ?_⟩
      · simp [Nat.toDigitsCore, h0, hL]
      · intro c hc
        rcases List.mem_append.mp hc with hc | hc
        · exact hdig c hc
        · simp only [List.mem_singleton] at hc
          subst hc
          omega
      · intro acc rest
        rw [List.append_assoc, hval, List.singleton_append,
          parseDigits_digitChar _ _ hmod, List.length_append, List.length_singleton, pow_succ]
        congr 1
        have := Nat.div_add_mod n 10
        nlinarith [this]

theorem toDigits_spec (k : Nat) :
    Nat.toDigits 10 k ≠ [] ∧ (∀ c ∈ Nat.toDigits 10 k, 48 ≤ c.toNat ∧ c.toNat ≤ 57) ∧
      parseDigits 0 (Nat.toDigits 10 k) = some k := by
  obtain ⟨L, hL, hne, hdig, hval⟩ := toDigitsCore_spec (k + 1) k [] (by omega)
  rw [List.append_nil] at hL
  rw [Nat.toDigits, hL]
  refine ⟨hne, hdig, ?_⟩
  have := hval 0 []
  rw [List.append_nil] at this
  rw [this]
  simp [parseDigits]

theorem Atoi_toDigits (k : Nat) (hk : (k : Int) ≤ maxInt) :
    Atoi (Nat.toDigits 10 k) = some (k : Int) := by
  obtain ⟨hne, hdig, hval⟩ := toDigits_spec k
  obtain ⟨c, cs, hcs⟩ := List.exists_cons_of_ne_nil hne
  have hc := hdig c (by rw [hcs]; simp)
  have hminus : c ≠ '-' := by
    intro h; subst h; revert hc; decide
  have hplus : c ≠ '+' := by
    intro h; subst h; revert hc; decide
  rw [hcs] at hval
  have hmin : minInt ≤ (k : Int) := by
    have : minInt ≤ 0 := by decide
    omega
  simp [Atoi, hcs, hminus, hplus, hval, hk, hmin]

end strconv

namespace strings

theorem HasPrefix_cons_char (c a : Char) (s : GoString) :
    HasPrefix (c :: s) [a] = (a == c) := by
  simp [HasPrefix, List.isPrefixOf]

theorem HasSuffix_concat_char (a : Char) (s : GoString) :
    HasSuffix (s ++ [a]) [a] = true := by
  have h : [a] <:+ s ++ [a] := ⟨s, rfl⟩
  simp [HasSuffix, h]

theorem Trim_brackets (L : GoString) (hne : L ≠ [])
    (hdig : ∀ c ∈ L, 48 ≤ c.toNat ∧ c.toNat ≤ 57) :
    Trim ('[' :: (L ++ "]".toList)) "[]".toList = L := by
  have hnot : ∀ c ∈ L, ("[]".toList.contains c) = false := by
    intro c hc
    have h := hdig c hc
    have h1 : c ≠ '[' := by intro h; subst h; revert h; decide
    have h2 : c ≠ ']' := by intro h; subst h; revert h; decide
    simp [h1, h2]
  obtain ⟨c, cs, hcs⟩ := List.exists_cons_of_ne_nil hne
  have hc : ¬ ("[]".toList.contains c) = true := by
    rw [hnot c (by rw [hcs]; simp)]; simp
  have hlast : L.rdropWhile (fun c => "[]".toList.contains c) = L := by
    rw [List.rdropWhile_eq_self_iff]
    intro h
    rw [hnot _ (List.getLast_mem h)]; simp
  unfold Trim
  rw [List.dropWhile_cons_of_pos (by decide), hcs, List.cons_append,
    List.dropWhile_cons_of_neg hc, ← List.cons_append, ← hcs]
  show List.rdropWhile _ (L ++ [']']) = L
  rw [List.rdropWhile_concat_pos _ _ _ (by decide), hlast]

end strings

/-! ## The tree builder -/

theorem Item.tokensList_nil : Item.tokensList [] = [] := by
  rw [Item.tokensList]

theorem Item.tokensList_text (s : GoString) (rest : List Item) :
    Item.tokensList (.text s :: rest) = .CharData s :: Item.tokensList rest := by
  rw [Item.tokensList, Item.tokens]; rfl

theorem Item.tokensList_elem (name : GoString) (attrs : List xml.Attr) (body rest : List Item) :
    Item.tokensList (.elem name attrs body :: rest) =
      .StartElement ⟨name, attrs⟩ ::
        (Item.tokensList body ++ .EndElement name :: Item.tokensList rest) := by
  rw [Item.tokensList, Item.tokens]; simp

theorem Item.nodesList_nil : Item.nodesList [] = [] := by
  rw [Item.nodesList]

theorem Item.nodesList_text (s : GoString) (rest : List Item) :
    Item.nodesList (.text s :: rest) = Item.nodesList rest := by
  rw [Item.nodesList, Item.nodes]; rfl

theorem Item.nodesList_elem (name : GoString) (attrs : List xml.Attr) (body rest : List Item) :
    Item.nodesList (.elem name attrs body :: rest) =
      { Name := name, Attributes := attrMap attrs, Content := directText body,
        Children := Item.nodesList body } :: Item.nodesList rest := by
  rw [Item.nodesList, Item.nodes]; rfl

/-- The loop of `parseXMLElement`, started in front of the tokens of a body
followed by the end element of the tag under construction, reads exactly these
tokens and returns the tag with the nodes of the body appended to its children
and the direct text of the body appended to its builder. -/
theorem parseXMLElementLoop_body : ∀ (fuel : Nat) (body : List Item) (more : List xml.Token)
    (err : GoString) (tag : XMLTag) (cb : GoString),
    (Item.tokensList body).length + 1 ≤ fuel →
    parseXMLElementLoop fuel ⟨Item.tokensList body ++ .EndElement tag.Name :: more, err⟩ tag cb
      = some (({ Name := tag.Name, Attributes := tag.Attributes,
                 Content := cb ++ directText body,
                 Children := tag.Children ++ Item.nodesList body }, none), ⟨more, err⟩) := by
  intro fuel
  induction fuel with
  | zero => intro body more err tag cb h; omega
  | succ fuel ih =>
    intro body more err tag cb hfuel
    match body with
    | [] =>
      simp [Item.tokensList_nil, Item.nodesList_nil, directText, parseXMLElementLoop,
        xml.Decoder.Token]
    | .text s :: rest =>
      rw [Item.tokensList_text] at hfuel ⊢
      simp only [List.length_cons] at hfuel
      rw [List.cons_append, parseXMLElementLoop]
      simp only [xml.Decoder.Token]
      split
      · rw [ih rest more err tag _ (by omega)]
        simp [directText, Item.nodesList_text, *]
      · rw [ih rest more err tag _ (by omega)]
        simp [directText, Item.nodesList_text, *]
    | .elem name attrs inner :: rest =>
      rw [Item.tokensList_elem] at hfuel ⊢
      simp only [List.length_cons, List.length_append] at hfuel
      rw [List.cons_append, parseXMLElementLoop]
      simp only [xml.Decoder.Token, List.append_assoc, List.cons_append]
      have hinner := ih inner (Item.tokensList rest ++ .EndElement tag.Name :: more) err
        (startTag ⟨name, attrs⟩) [] (by omega)
      simp only [startTag] at hinner ⊢
      rw [hinner]
      simp only []
      have hrest := ih rest more err { tag with Children := tag.Children ++
        [{ Name := name, Attributes := attrMap attrs, Content := [] ++ directText inner,
           Children := [] ++ Item.nodesList inner }] } cb (by omega)
      simp only [] at hrest
      rw [hrest]
      simp [directText, Item.nodesList_elem]

/-- One round of either loop reads one token, so with more fuel than tokens the
loop of `parseXMLElement` returns; the decoder it leaves reports the same final
error and has no more tokens than before. -/
theorem parseXMLElementLoop_returns : ∀ (fuel : Nat) (decoder : xml.Decoder) (tag : XMLTag)
    (cb : GoString), decoder.tokens.length < fuel →
    ∃ r, parseXMLElementLoop fuel decoder tag cb = some r ∧ r.2.err = decoder.err ∧
      r.2.tokens.length ≤ decoder.tokens.length := by
  intro fuel
  induction fuel with
  | zero => intro decoder tag cb h; omega
  | succ fuel ih =>
    intro decoder tag cb hfuel
    obtain ⟨tokens, err⟩ := decoder
    match tokens with
    | [] =>
      exact ⟨((XMLTag.zero, some err), ⟨[], err⟩),
        by simp [parseXMLElementLoop, xml.Decoder.Token], rfl, le_refl _⟩
    | token :: tokens =>
      simp only [List.length_cons] at hfuel ⊢
      rw [parseXMLElementLoop]
      simp only [xml.Decoder.Token]
      match token with
      | .StartElement elem =>
        obtain ⟨r, hr, herr, hlen⟩ := ih ⟨tokens, err⟩ (startTag elem) [] (by simpa using hfuel)
        simp only [hr]
        obtain ⟨⟨childTag, cerr⟩, decoder2⟩ := r
        match cerr with
        | some e => exact ⟨_, rfl, herr, by simp at hlen ⊢; omega⟩
        | none =>
          simp only at herr hlen
          obtain ⟨r2, hr2, herr2, hlen2⟩ := ih decoder2
            { tag with Children := tag.Children ++ [childTag] } cb (by omega)
          exact ⟨r2, hr2, by rw [herr2, herr], by omega⟩
      | .CharData data =>
        simp only
        split
        · obtain ⟨r, hr, herr, hlen⟩ := ih ⟨tokens, err⟩ tag (cb ++ strings.TrimSpace data)
            (by simpa using hfuel)
          exact ⟨r, hr, herr, by simp at hlen ⊢; omega⟩
        · obtain ⟨r, hr, herr, hlen⟩ := ih ⟨tokens, err⟩ tag cb (by simpa using hfuel)
          exact ⟨r, hr, herr, by simp at hlen ⊢; omega⟩
      | .EndElement name =>
        simp only
        split
        · exact ⟨_, rfl, rfl, by simp⟩
        · obtain ⟨r, hr, herr, hlen⟩ := ih ⟨tokens, err⟩ tag cb (by simpa using hfuel)
          exact ⟨r, hr, herr, by simp at hlen ⊢; omega⟩
      | .Other =>
        obtain ⟨r, hr, herr, hlen⟩ := ih ⟨tokens, err⟩ tag cb (by simpa using hfuel)
        exact ⟨r, hr, herr, by simp at hlen ⊢; omega⟩

/-- With more fuel than tokens the loop of `ParseXML` returns. -/
theorem ParseXMLLoop_returns : ∀ (fuel : Nat) (decoder : xml.Decoder) (rootTag : XMLTag)
    (cb : GoString), decoder.tokens.length < fuel →
    ∃ t, ParseXMLLoop fuel decoder rootTag cb = some t := by
  intro fuel
  induction fuel with
  | zero => intro decoder rootTag cb h; omega
  | succ fuel ih =>
    intro decoder rootTag cb hfuel
    obtain ⟨tokens, err⟩ := decoder
    match tokens with
    | [] =>
      rw [ParseXMLLoop]
      simp only [xml.Decoder.Token]
      split <;> exact ⟨_, rfl⟩
    | token :: tokens =>
      simp only [List.length_cons] at hfuel
      rw [ParseXMLLoop]
      simp only [xml.Decoder.Token]
      match token with
      | .StartElement elem =>
        simp only
        split
        · exact ih _ _ _ (by simpa using hfuel)
        · obtain ⟨r, hr, herr, hlen⟩ := parseXMLElementLoop_returns fuel ⟨tokens, err⟩
            (startTag elem) [] (by simpa using hfuel)
          simp only [parseXMLElement, hr]
          obtain ⟨⟨childTag, cerr⟩, decoder2⟩ := r
          match cerr with
          | some e => exact ⟨_, rfl⟩
          | none => exact ih _ _ _ (by simp at hlen ⊢; omega)
      | .CharData data =>
        simp only
        split <;> exact ih _ _ _ (by simpa using hfuel)
      | .EndElement name => exact ih _ _ _ (by simpa using hfuel)
      | .Other => exact ih _ _ _ (by simpa using hfuel)

/-- The fuel `ParseXML` starts with is enough: it returns a node on every
decoder. -/
theorem ParseXML_isSome (decoder : xml.Decoder) : ∃ t, ParseXML decoder = some t :=
  ParseXMLLoop_returns _ decoder XMLTag.zero [] (Nat.lt_succ_self _)

/-- When the final error is not `"EOF"`, the loop of `ParseXML` returns the zero
node whatever it has built so far. -/
theorem ParseXMLLoop_error : ∀ (fuel : Nat) (decoder : xml.Decoder) (rootTag : XMLTag)
    (cb : GoString), decoder.tokens.length < fuel → decoder.err ≠ "EOF".toList →
    ParseXMLLoop fuel decoder rootTag cb = some XMLTag.zero := by
  intro fuel
  induction fuel with
  | zero => intro decoder rootTag cb h; omega
  | succ fuel ih =>
    intro decoder rootTag cb hfuel herr
    obtain ⟨tokens, err⟩ := decoder
    simp only at herr
    match tokens with
    | [] =>
      rw [ParseXMLLoop]
      simp only [xml.Decoder.Token]
      rw [if_neg (by simpa using herr)]
    | token :: tokens =>
      simp only [List.length_cons] at hfuel
      rw [ParseXMLLoop]
      simp only [xml.Decoder.Token]
      match token with
      | .StartElement elem =>
        simp only
        split
        · exact ih _ _ _ (by simpa using hfuel) herr
        · obtain ⟨r, hr, herr2, hlen⟩ := parseXMLElementLoop_returns fuel ⟨tokens, err⟩
            (startTag elem) [] (by simpa using hfuel)
          simp only [parseXMLElement, hr]
          obtain ⟨⟨childTag, cerr⟩, decoder2⟩ := r
          match cerr with
          | some e => rfl
          | none => exact ih _ _ _ (by simp at hlen ⊢; omega) (by rw [herr2]; exact herr)
      | .CharData data =>
        simp only
        split <;> exact ih _ _ _ (by simpa using hfuel) herr
      | .EndElement name => exact ih _ _ _ (by simpa using hfuel) herr
      | .Other => exact ih _ _ _ (by simpa using hfuel) herr

theorem serializeStartElement_eq_openTag (name : GoString) (attrs : List xml.Attr) :
    serializeStartElement ⟨name, attrs⟩ = openTag name attrs := by
  have h : ∀ (l : List xml.Attr) (init : GoString),
      l.foldl (fun result attr => result ++
        (" ".toList ++ attr.Name ++ "=\"".toList ++ attr.Value ++ "\"".toList)) init
      = init ++ (l.map (fun a =>
        " ".toList ++ a.Name ++ "=\"".toList ++ a.Value ++ "\"".toList)).flatten := by
    intro l
    induction l with
    | nil => intro init; simp
    | cons a l ih =>
      intro init
      rw [List.foldl_cons, ih, List.map_cons, List.flatten_cons]
      simp only [List.append_assoc]
  simp only [serializeStartElement, openTag, h]

theorem rootContent_nil : rootContent [] = [] := rfl

theorem rootContent_cons (i : Item) (rest : List Item) :
    rootContent (i :: rest) = rootPiece i ++ rootContent rest := by
  simp [rootContent]

/-- The loop of `ParseXML`, once the root is named, in front of the tokens of a
body, one more token that is not a start element or text, and a clean end:
the nodes of the body are appended to the root's children and the pieces of
the body to its builder. -/
theorem ParseXMLLoop_body : ∀ (fuel : Nat) (body : List Item) (endName : GoString)
    (rootTag : XMLTag) (cb : GoString), rootTag.Name ≠ [] →
    (Item.tokensList body).length + 2 ≤ fuel →
    ParseXMLLoop fuel ⟨Item.tokensList body ++ [.EndElement endName], "EOF".toList⟩ rootTag cb
      = some { Name := rootTag.Name, Attributes := rootTag.Attributes,
               Content := cb ++ rootContent body,
               Children := rootTag.Children ++ Item.nodesList body } := by
  intro fuel
  induction fuel with
  | zero => intro body endName rootTag cb _ h; omega
  | succ fuel ih =>
    intro body endName rootTag cb hname hfuel
    match body with
    | [] =>
      obtain ⟨fuel, rfl⟩ : ∃ f, fuel = f + 1 := ⟨fuel - 1, by omega⟩
      simp [Item.tokensList_nil, Item.nodesList_nil, rootContent_nil, ParseXMLLoop,
        xml.Decoder.Token]
    | .text s :: rest =>
      rw [Item.tokensList_text] at hfuel ⊢
      simp only [List.length_cons] at hfuel
      rw [List.cons_append, ParseXMLLoop]
      simp only [xml.Decoder.Token]
      split
      · rw [ih rest endName rootTag _ hname (by omega)]
        simp [rootContent_cons, rootPiece, Item.nodesList_text, *]
      · rw [ih rest endName rootTag _ hname (by omega)]
        simp [rootContent_cons, rootPiece, Item.nodesList_text, *]
    | .elem name attrs inner :: rest =>
      rw [Item.tokensList_elem] at hfuel ⊢
      simp only [List.length_cons, List.length_append] at hfuel
      rw [List.cons_append, List.append_assoc, List.cons_append, ParseXMLLoop]
      have hn : (rootTag.Name == []) = false := by simpa using hname
      simp only [xml.Decoder.Token, hn,
        Bool.false_eq_true, if_false, parseXMLElement]
      have hinner := parseXMLElementLoop_body fuel inner
        (Item.tokensList rest ++ [.EndElement endName]) "EOF".toList
        (startTag ⟨name, attrs⟩) [] (by omega)
      simp only [startTag] at hinner ⊢
      rw [hinner]
      simp only []
      have hrest := ih rest endName { rootTag with Children := rootTag.Children ++
        [{ Name := name, Attributes := attrMap attrs, Content := [] ++ directText inner,
           Children := [] ++ Item.nodesList inner }] }
        (cb ++ serializeStartElement ⟨name, attrs⟩ ++ ([] ++ directText inner)
          ++ ("</".toList ++ name ++ ">".toList)) hname (by omega)
      simp only [] at hrest
      rw [hrest]
      simp [rootContent_cons, rootPiece, Item.nodesList_elem, serializeStartElement_eq_openTag]

/-- What `ParseXML` returns on the token sequence of a document whose root has
a non-empty name, read to a clean end. -/
theorem ParseXML_document (name : GoString) (attrs : List xml.Attr) (body : List Item)
    (hname : name ≠ []) :
    ParseXML ⟨Item.tokens (.elem name attrs body), "EOF".toList⟩
      = some { Name := name, Attributes := attrMap attrs, Content := rootContent body,
               Children := Item.nodesList body } := by
  rw [ParseXML, Item.tokens]
  simp only [List.length_cons, List.length_append, List.length_nil]
  rw [ParseXMLLoop]
  simp only [xml.Decoder.Token, XMLTag.zero, beq_self_eq_true, if_true]
  rw [ParseXMLLoop_body _ body name _ [] hname (by simp)]
  simp

theorem entriesSet_of_not_mem (l : List (GoString × GoString)) (k v : GoString)
    (hk : k ∉ l.map Prod.fst) : entriesSet l k v = l ++ [(k, v)] := by
  have h : l.any (fun p => p.1 == k) = false := by
    rw [List.any_eq_false]
    intro p hp hpk
    exact hk (List.mem_map.mpr ⟨p, hp, by simpa using hpk⟩)
  simp [entriesSet, h]

theorem foldl_set_of_nodup : ∀ (attrs : List xml.Attr) (acc : List (GoString × GoString)),
    (acc.map Prod.fst ++ attrs.map (fun a => a.Name)).Nodup →
    attrs.foldl (fun m attr => GoMap.set m attr.Name attr.Value) (some acc)
      = some (acc ++ attrs.map (fun a => (a.Name, a.Value))) := by
  intro attrs
  induction attrs with
  | nil => intro acc _; simp
  | cons a attrs ih =>
    intro acc hnd
    have ha : a.Name ∉ acc.map Prod.fst := by
      intro hmem
      rw [List.nodup_append] at hnd
      exact hnd.2.2 hmem (by simp)
    rw [List.foldl_cons, GoMap.set, entriesSet_of_not_mem acc _ _ ha, ih]
    · simp
    · have : (acc ++ [(a.Name, a.Value)]).map Prod.fst ++ attrs.map (fun a => a.Name)
          = acc.map Prod.fst ++ (a :: attrs).map (fun a => a.Name) := by simp
      rw [this]; exact hnd

/-- With pairwise distinct attribute names the map built from an opening tag
holds the attributes as they stand. -/
theorem attrMap_of_nodup (attrs : List xml.Attr) (hnd : (attrs.map (fun a => a.Name)).Nodup) :
    attrMap attrs = some (attrs.map (fun a => (a.Name, a.Value))) := by
  have h := foldl_set_of_nodup attrs [] (by simpa using hnd)
  simpa [attrMap] using h

theorem lookup_eq_some_iff_of_nodup : ∀ (l : List (GoString × GoString)) (k v : GoString),
    (l.map Prod.fst).Nodup → (l.lookup k = some v ↔ (k, v) ∈ l) := by
  intro l
  induction l with
  | nil => intro k v _; simp
  | cons p l ih =>
    intro k v hnd
    obtain ⟨pk, pv⟩ := p
    simp only [List.map_cons, List.nodup_cons] at hnd
    by_cases hk : k = pk
    · subst hk
      have hnot : (k, v) ∉ l := fun hmem => hnd.1 (List.mem_map.mpr ⟨(k, v), hmem, rfl⟩)
      simp [List.lookup_cons, hnot]
      exact eq_comm
    · have hne : (k == pk) = false := by simpa using hk
      rw [List.lookup_cons, hne]
      simp [ih k v hnd.2, hk]

/-- With pairwise distinct attribute names, the map built from an opening tag
has exactly the name/value pairs of that tag. -/
theorem attrMap_get_iff (attrs : List xml.Attr) (hnd : (attrs.map (fun a => a.Name)).Nodup)
    (k v : GoString) : (attrMap attrs).get k = some v ↔ (⟨k, v⟩ : xml.Attr) ∈ attrs := by
  rw [attrMap_of_nodup attrs hnd, GoMap.get, lookup_eq_some_iff_of_nodup]
  · constructor
    · intro h
      obtain ⟨a, ha, hpair⟩ := List.mem_map.mp h
      obtain ⟨an, av⟩ := a
      simp only [Prod.mk.injEq] at hpair
      obtain ⟨rfl, rfl⟩ := hpair
      exact ha
    · intro h
      exact List.mem_map.mpr ⟨⟨k, v⟩, h, rfl⟩
  · simpa [List.map_map] using hnd

theorem Item.length_nodesList : ∀ (body : List Item),
    (Item.nodesList body).length = body.countP Item.isElem
  | [] => by simp [Item.nodesList_nil]
  | .text s :: rest => by
    simp [Item.nodesList_text, Item.length_nodesList rest, Item.isElem]
  | .elem name attrs inner :: rest => by
    simp [Item.nodesList_elem, Item.length_nodesList rest, Item.isElem]

theorem Item.content_nodesList : ∀ (body : List Item),
    (Item.nodesList body).map XMLTag.Content = childTexts body
  | [] => by simp [Item.nodesList_nil, childTexts]
  | .text s :: rest => by
    simp [Item.nodesList_text, Item.content_nodesList rest, childTexts]
  | .elem name attrs inner :: rest => by
    simp [Item.nodesList_elem, Item.content_nodesList rest, childTexts]

theorem Item.everyLevel_content : ∀ (body : List Item),
    Item.EveryLevelList ContentIsDirectText body (Item.nodesList body)
  | [] => by simp [Item.nodesList_nil, Item.EveryLevelList]
  | .text s :: rest => by
    rw [Item.nodesList_text, Item.EveryLevelList]
    exact Item.everyLevel_content rest
  | .elem name attrs inner :: rest => by
    rw [Item.nodesList_elem, Item.EveryLevelList, Item.EveryLevel]
    exact ⟨⟨rfl, Item.everyLevel_content inner⟩, Item.everyLevel_content rest⟩

theorem Item.everyLevel_shape : ∀ (body : List Item), Item.wellNamedList body = true →
    Item.EveryLevelList SameNameAndAttributes body (Item.nodesList body)
  | [], _ => by simp [Item.nodesList_nil, Item.EveryLevelList]
  | .text s :: rest, h => by
    rw [Item.nodesList_text, Item.EveryLevelList]
    rw [Item.wellNamedList, Item.wellNamed] at h
    exact Item.everyLevel_shape rest (by simpa using h)
  | .elem name attrs inner :: rest, h => by
    rw [Item.nodesList_elem, Item.EveryLevelList, Item.EveryLevel]
    rw [Item.wellNamedList, Item.wellNamed] at h
    simp only [Bool.and_eq_true, decide_eq_true_eq] at h
    exact ⟨⟨⟨rfl, attrMap_get_iff attrs h.1.1.2⟩, Item.everyLevel_shape inner h.1.2⟩,
      Item.everyLevel_shape rest h.2⟩

/-! ## More on the path resolver -/

namespace strconv

theorem parseDigits_digits : ∀ (l : GoString) (acc n : Nat), parseDigits acc l = some n →
    ∀ c ∈ l, 48 ≤ c.toNat ∧ c.toNat ≤ 57 := by
  intro l
  induction l with
  | nil => intro acc n _ c hc; simp at hc
  | cons d l ih =>
    intro acc n h c hc
    rw [parseDigits] at h
    by_cases hd : 48 ≤ d.toNat ∧ d.toNat ≤ 57
    · rw [if_pos hd] at h
      rcases List.mem_cons.mp hc with rfl | hc
      · exact hd
      · exact ih _ _ h c hc
    · rw [if_neg hd] at h
      exact absurd h (by simp)

/-- When `Atoi` accepts a string, what follows its optional sign is a non-empty
run of digits. -/
theorem Atoi_some_body (s : GoString) (N : Int) (h : Atoi s = some N) :
    (if (s.head? == some '-' || s.head? == some '+') = true then s.tail else s) ≠ [] ∧
    ∀ c ∈ (if (s.head? == some '-' || s.head? == some '+') = true then s.tail else s),
      48 ≤ c.toNat ∧ c.toNat ≤ 57 := by
  unfold Atoi at h
  simp only at h
  generalize (if (s.head? == some '-' || s.head? == some '+') = true then s.tail else s) = b
    at h ⊢
  by_cases hb : b.isEmpty = true
  · rw [if_pos hb] at h
    exact absurd h (by simp)
  · rw [if_neg hb] at h
    cases hp : parseDigits 0 b with
    | none => rw [hp] at h; exact absurd h (by simp)
    | some n => exact ⟨by simpa using hb, parseDigits_digits b 0 n hp⟩

/-- A string `Atoi` accepts is not empty and neither begins nor ends with a
bracket. -/
theorem Atoi_some_ends (s : GoString) (N : Int) (h : Atoi s = some N) :
    s ≠ [] ∧ (∀ c, s.head? = some c → c ≠ '[' ∧ c ≠ ']') ∧
      (∀ c, s.getLast? = some c → c ≠ '[' ∧ c ≠ ']') := by
  have hdigit : ∀ c : Char, 48 ≤ c.toNat ∧ c.toNat ≤ 57 → c ≠ '[' ∧ c ≠ ']' := by
    intro c hc
    constructor
    · intro h; subst h; revert hc; decide
    · intro h; subst h; revert hc; decide
  obtain ⟨hne, hdig⟩ := Atoi_some_body s N h
  match s, hne, hdig with
  | [], hne, _ => simp at hne
  | c :: cs, hne, hdig =>
    by_cases hs : c = '-' ∨ c = '+'
    · have hsign : (((c :: cs).head? == some '-' || (c :: cs).head? == some '+') = true) := by
        rcases hs with rfl | rfl <;> simp
      rw [if_pos hsign] at hne hdig
      simp only [List.tail_cons] at hne hdig
      refine ⟨by simp, ?_, ?_⟩
      · intro c' hc'
        simp only [List.head?_cons, Option.some.injEq] at hc'
        subst hc'
        rcases hs with rfl | rfl <;> decide
      · intro c' hc'
        obtain ⟨d, ds, hds⟩ := List.exists_cons_of_ne_nil hne
        rw [hds, List.getLast?_cons_cons] at hc'
        rw [hds] at hdig
        exact hdigit c' (hdig c' (List.mem_of_getLast?_eq_some hc'))
    · have hsign : ¬ (((c :: cs).head? == some '-' || (c :: cs).head? == some '+') = true) := by
        simpa using hs
      rw [if_neg hsign] at hdig
      refine ⟨by simp, ?_, ?_⟩
      · intro c' hc'
        simp only [List.head?_cons, Option.some.injEq] at hc'
        subst hc'
        exact hdigit _ (hdig _ (by simp))
      · intro c' hc'
        exact hdigit c' (hdig c' (List.mem_of_getLast?_eq_some hc'))

end strconv

namespace strings

/-- Trimming brackets off `[` ++ interior ++ `]` gives the interior back when
the interior is not empty and neither begins nor ends with a bracket. -/
theorem Trim_brackets_of_ends (L : GoString) (hne : L ≠ [])
    (hhead : ∀ c, L.head? = some c → c ≠ '[' ∧ c ≠ ']')
    (hlast : ∀ c, L.getLast? = some c → c ≠ '[' ∧ c ≠ ']') :
    Trim ('[' :: (L ++ "]".toList)) "[]".toList = L := by
  obtain ⟨c, cs, hcs⟩ := List.exists_cons_of_ne_nil hne
  have hc : ¬ ("[]".toList.contains c) = true := by
    have := hhead c (by rw [hcs]; rfl)
    simp [this.1, this.2]
  have hl : L.rdropWhile (fun c => "[]".toList.contains c) = L := by
    rw [List.rdropWhile_eq_self_iff]
    intro h
    have := hlast (L.getLast h) (List.getLast?_eq_getLast _ h)
    simp [this.1, this.2]
  unfold Trim
  rw [List.dropWhile_cons_of_pos (by decide), hcs, List.cons_append,
    List.dropWhile_cons_of_neg hc, ← List.cons_append, ← hcs]
  show List.rdropWhile _ (L ++ [']']) = L
  rw [List.rdropWhile_concat_pos _ _ _ (by decide), hl]

end strings

/-- What `findTagByPattern` does on a bracket-delimited step. -/
theorem findTagByPattern_bracket_step (node : XMLTag) (s : GoString) (rest : List GoString)
    (hat : strings.HasPrefix s "@".toList = false)
    (hbr : (strings.HasPrefix s "[".toList && strings.HasSuffix s "]".toList) = true) :
    findTagByPattern node (s :: rest) =
      match parseIndex (strings.Trim s "[]".toList) with
      | (_, some err) => (XMLTag.zero, some err)
      | (index, none) =>
        if h : 0 ≤ index ∧ index < (node.Children.length : Int) then
          findTagByPattern (node.Children.get ⟨index.toNat, by omega⟩) rest
        else
          (XMLTag.zero,
            some ("тег с индексом ".toList ++ strconv.formatInt index ++ " не найден".toList)) := by
  rw [findTagByPattern]
  simp only [hat, hbr, Bool.false_eq_true, if_false, if_true]

theorem bracketed_step (interior : GoString) :
    strings.HasPrefix ("[".toList ++ interior ++ "]".toList) "@".toList = false ∧
    (strings.HasPrefix ("[".toList ++ interior ++ "]".toList) "[".toList
      && strings.HasSuffix ("[".toList ++ interior ++ "]".toList) "]".toList) = true := by
  have hstep : "[".toList ++ interior ++ "]".toList = '[' :: (interior ++ [']']) := rfl
  rw [hstep]
  constructor
  · rw [show "@".toList = ['@'] from rfl, strings.HasPrefix_cons_char]; decide
  · rw [show "[".toList = ['['] from rfl, strings.HasPrefix_cons_char,
      show "]".toList = [']'] from rfl, ← List.cons_append, strings.HasSuffix_concat_char]
    decide

/-- What `findTagByPattern` does on an attribute step. -/
theorem findTagByPattern_at_step (node : XMLTag) (attr : GoString) (rest : List GoString) :
    findTagByPattern node (("@".toList ++ attr) :: rest) =
      match node.Attributes.get attr with
      | some value =>
        ({ Name := [], Attributes := none, Content := value, Children := [] }, none)
      | none =>
        (XMLTag.zero, some ("атрибут ".toList ++ attr ++ " не найден".toList)) := by
  have hstep : "@".toList ++ attr = '@' :: attr := rfl
  have hat : strings.HasPrefix ('@' :: attr) "@".toList = true := by
    rw [show "@".toList = ['@'] from rfl, strings.HasPrefix_cons_char]; decide
  have htrim : strings.TrimPrefix ('@' :: attr) "@".toList = attr := by
    rw [strings.TrimPrefix, if_pos hat]; rfl
  rw [hstep, findTagByPattern]
  simp only [hat, if_true, htrim]

/-! ## The pattern parser -/

theorem splitSlash_ne_nil : ∀ (s : GoString), splitSlash s ≠ []
  | [] => by simp [splitSlash]
  | c :: s => by
    rw [splitSlash]
    split
    · simp
    · split <;> simp

theorem Split_eq_splitSlash : ∀ (s : GoString), strings.Split s '/' = splitSlash s
  | [] => by simp [strings.Split, splitSlash, List.splitOn]
  | c :: s => by
    have ih := Split_eq_splitSlash s
    simp only [strings.Split, List.splitOn] at ih ⊢
    rw [List.splitOnP_cons, ih, splitSlash]
    by_cases hc : c = '/'
    · simp [hc]
    · have hne := splitSlash_ne_nil s
      simp only [beq_iff_eq, hc, if_false]
      cases hs : splitSlash s with
      | nil => exact absurd hs hne
      | cons step steps => simp [List.modifyHead]

theorem dropWhile_slash_eq : ∀ (s : GoString),
    s.dropWhile (fun c => "/".toList.contains c) = dropLeadingSlashes s
  | [] => by simp [dropLeadingSlashes]
  | c :: s => by
    rw [dropLeadingSlashes]
    by_cases hc : c = '/'
    · rw [if_pos hc, List.dropWhile_cons_of_pos (by simp [hc]), dropWhile_slash_eq s]
    · rw [if_neg hc, List.dropWhile_cons_of_neg (by simp [hc])]

theorem Trim_slash_eq (p : GoString) : strings.Trim p "/".toList = stripAllSlashes p := by
  rw [strings.Trim, List.rdropWhile, dropWhile_slash_eq, dropWhile_slash_eq, stripAllSlashes]

/-- The pattern parser of the source against the steps in words: all leading
and trailing separators removed, then the split on `/`. -/
theorem parsePattern_eq (p : GoString) : parsePattern p = splitSlash (stripAllSlashes p) := by
  rw [parsePattern]
  simp only [Trim_slash_eq, Split_eq_splitSlash]

theorem dropLeadingSlashes_spec : ∀ (s : GoString),
    (∃ n, s = List.replicate n '/' ++ dropLeadingSlashes s) ∧
      (dropLeadingSlashes s).head? ≠ some '/'
  | [] => ⟨⟨0, by simp [dropLeadingSlashes]⟩, by simp [dropLeadingSlashes]⟩
  | c :: s => by
    rw [dropLeadingSlashes]
    by_cases hc : c = '/'
    · rw [if_pos hc]
      obtain ⟨⟨n, hn⟩, hh⟩ := dropLeadingSlashes_spec s
      refine ⟨⟨n + 1, ?_⟩, hh⟩
      rw [List.replicate_succ, List.cons_append, ← hn, hc]
    · rw [if_neg hc]
      exact ⟨⟨0, by simp⟩, by simpa using hc⟩

/-- What `stripAllSlashes` leaves: the pattern is a run of `/`, then what is
left, then a run of `/`, and what is left neither begins nor ends with `/`. -/
theorem stripAllSlashes_spec (p : GoString) :
    (∃ n m, p = List.replicate n '/' ++ stripAllSlashes p ++ List.replicate m '/') ∧
      (stripAllSlashes p).head? ≠ some '/' ∧ (stripAllSlashes p).getLast? ≠ some '/' := by
  obtain ⟨⟨n, hn⟩, hhead⟩ := dropLeadingSlashes_spec p
  obtain ⟨⟨m, hm⟩, hlast⟩ := dropLeadingSlashes_spec (dropLeadingSlashes p).reverse
  have hq : dropLeadingSlashes p = stripAllSlashes p ++ List.replicate m '/' := by
    have := congrArg List.reverse hm
    rw [List.reverse_reverse, List.reverse_append, List.reverse_replicate] at this
    exact this
  refine ⟨⟨n, m, ?_⟩, ?_, ?_⟩
  · rw [List.append_assoc, ← hq]; exact hn
  · rw [hq] at hhead
    cases hs : stripAllSlashes p with
    | nil => simp
    | cons c r => rw [hs] at hhead; simpa using hhead
  · rw [stripAllSlashes, List.getLast?_reverse]
    exact hlast

theorem splitSlash_no_slash : ∀ (s : GoString), ∀ step ∈ splitSlash s, '/' ∉ step
  | [] => by simp [splitSlash]
  | c :: s => by
    have ih := splitSlash_no_slash s
    rw [splitSlash]
    by_cases hc : c = '/'
    · rw [if_pos hc]
      intro step hstep
      rcases List.mem_cons.mp hstep with rfl | h
      · simp
      · exact ih step h
    · rw [if_neg hc]
      cases hs : splitSlash s with
      | nil => simp [Ne.symm hc]
      | cons first steps =>
        rw [hs] at ih
        intro step hstep
        rcases List.mem_cons.mp hstep with rfl | h
        · intro hmem
          rcases List.mem_cons.mp hmem with h1 | h1
          · exact hc h1.symm
          · exact ih first (by simp) h1
        · exact ih step (by simp [h])

theorem intercalate_splitSlash (s : GoString) :
    List.intercalate "/".toList (splitSlash s) = s := by
  rw [← Split_eq_splitSlash]
  exact List.intercalate_splitOn s '/'

/-! ## More on the tree builder -/

theorem Item.nodesList_append : ∀ (xs ys : List Item),
    Item.nodesList (xs ++ ys) = Item.nodesList xs ++ Item.nodesList ys
  | [], ys => by simp [Item.nodesList_nil]
  | .text s :: xs, ys => by
    rw [List.cons_append, Item.nodesList_text, Item.nodesList_text, Item.nodesList_append xs ys]
  | .elem name attrs inner :: xs, ys => by
    rw [List.cons_append, Item.nodesList_elem, Item.nodesList_elem,
      Item.nodesList_append xs ys, List.cons_append]

theorem rootContent_append (xs ys : List Item) :
    rootContent (xs ++ ys) = rootContent xs ++ rootContent ys := by
  simp [rootContent]

theorem Item.length_le_tokensList : ∀ (body : List Item),
    body.length ≤ (Item.tokensList body).length
  | [] => by simp
  | .text s :: rest => by
    have := Item.length_le_tokensList rest
    rw [Item.tokensList_text]
    simp only [List.length_cons]
    omega
  | .elem name attrs inner :: rest => by
    have := Item.length_le_tokensList rest
    rw [Item.tokensList_elem]
    simp only [List.length_cons, List.length_append]
    omega

/-- The loop of `ParseXML`, once the root is named, in front of the tokens of
some pieces followed by any further tokens: one round per piece appends the
nodes of the pieces to the root's children and their root pieces to the
builder, and the loop goes on with the further tokens. -/
theorem ParseXMLLoop_items : ∀ (body : List Item) (fuel : Nat) (more : List xml.Token)
    (err : GoString) (rootTag : XMLTag) (cb : GoString), rootTag.Name ≠ [] →
    (Item.tokensList body).length + 1 ≤ fuel →
    ParseXMLLoop fuel ⟨Item.tokensList body ++ more, err⟩ rootTag cb
      = ParseXMLLoop (fuel - body.length) ⟨more, err⟩
          { Name := rootTag.Name, Attributes := rootTag.Attributes,
            Content := rootTag.Content,
            Children := rootTag.Children ++ Item.nodesList body }
          (cb ++ rootContent body) := by
  intro body
  induction body with
  | nil =>
    intro fuel more err rootTag cb _ _
    obtain ⟨n, a, c, ch⟩ := rootTag
    simp [Item.tokensList_nil, Item.nodesList_nil, rootContent_nil]
  | cons i rest ih =>
    intro fuel more err rootTag cb hname hfuel
    obtain ⟨fuel, rfl⟩ : ∃ f, fuel = f + 1 := ⟨fuel - 1, by omega⟩
    have hsub : fuel + 1 - (i :: rest).length = fuel - rest.length := by simp
    rw [hsub]
    match i with
    | .text s =>
      rw [Item.tokensList_text] at hfuel ⊢
      simp only [List.length_cons] at hfuel
      rw [List.cons_append, ParseXMLLoop]
      simp only [xml.Decoder.Token]
      split
      · rw [ih fuel more err rootTag _ hname (by omega)]
        simp [rootContent_cons, rootPiece, Item.nodesList_text, *]
      · rw [ih fuel more err rootTag _ hname (by omega)]
        simp [rootContent_cons, rootPiece, Item.nodesList_text, *]
    | .elem name attrs inner =>
      rw [Item.tokensList_elem] at hfuel ⊢
      simp only [List.length_cons, List.length_append] at hfuel
      rw [List.cons_append, List.append_assoc, List.cons_append, ParseXMLLoop]
      have hn : (rootTag.Name == []) = false := by simpa using hname
      simp only [xml.Decoder.Token, hn, Bool.false_eq_true, if_false, parseXMLElement]
      have hinner := parseXMLElementLoop_body fuel inner
        (Item.tokensList rest ++ more) err (startTag ⟨name, attrs⟩) [] (by omega)
      simp only [startTag] at hinner ⊢
      rw [hinner]
      simp only []
      have hrest := ih fuel more err { rootTag with Children := rootTag.Children ++
        [{ Name := name, Attributes := attrMap attrs, Content := [] ++ directText inner,
           Children := [] ++ Item.nodesList inner }] }
        (cb ++ serializeStartElement ⟨name, attrs⟩ ++ ([] ++ directText inner)
          ++ ("</".toList ++ name ++ ">".toList)) hname (by omega)
      simp only [] at hrest
      rw [hrest]
      simp [rootContent_cons, rootPiece, Item.nodesList_elem, serializeStartElement_eq_openTag]

/-- What `ParseXML` returns when further pieces follow the end element of the
root: they are handled as the pieces before it. -/
theorem ParseXML_root_end_ignored (name : GoString) (attrs : List xml.Attr)
    (inside after : List Item) (hname : name ≠ []) :
    ParseXML ⟨.StartElement ⟨name, attrs⟩ ::
        (Item.tokensList inside ++ .EndElement name :: Item.tokensList after), "EOF".toList⟩
      = some { Name := name, Attributes := attrMap attrs,
               Content := rootContent inside ++ rootContent after,
               Children := Item.nodesList inside ++ Item.nodesList after } := by
  have h1 := Item.length_le_tokensList inside
  have h2 := Item.length_le_tokensList after
  have hlen : (xml.Token.StartElement ⟨name, attrs⟩ ::
      (Item.tokensList inside ++ .EndElement name :: Item.tokensList after)).length + 1
      = ((Item.tokensList inside).length + (Item.tokensList after).length + 2) + 1 := by
    simp only [List.length_cons, List.length_append]
    omega
  rw [ParseXML]
  simp only []
  rw [hlen, ParseXMLLoop]
  simp only [xml.Decoder.Token, XMLTag.zero, beq_self_eq_true, if_true]
  rw [ParseXMLLoop_items inside
    ((Item.tokensList inside).length + (Item.tokensList after).length + 2) _ _ _ _ hname
    (by omega)]
  obtain ⟨f, hf⟩ : ∃ f, (Item.tokensList inside).length + (Item.tokensList after).length + 2
      - inside.length = f + 1 :=
    ⟨(Item.tokensList inside).length + (Item.tokensList after).length + 2
      - inside.length - 1, by omega⟩
  rw [hf, ParseXMLLoop]
  simp only [xml.Decoder.Token]
  have hafter := ParseXMLLoop_items after f [] "EOF".toList
    { Name := name, Attributes := attrMap attrs, Content := [],
      Children := [] ++ Item.nodesList inside } ([] ++ rootContent inside) hname (by omega)
  rw [List.append_nil] at hafter
  rw [hafter]
  obtain ⟨g, hg⟩ : ∃ g, f - after.length = g + 1 := ⟨f - after.length - 1, by omega⟩
  rw [hg, ParseXMLLoop]
  simp [xml.Decoder.Token]

/-- The loop of `ParseXML` on tokens without a start element, read to a clean
end: the root stays as it is and the trimmed texts go to the builder. -/
theorem ParseXMLLoop_no_start : ∀ (tokens : List xml.Token) (fuel : Nat) (rootTag : XMLTag)
    (cb : GoString), tokens.length < fuel →
    (∀ t ∈ tokens, t.isStartElement = false) →
    ParseXMLLoop fuel ⟨tokens, "EOF".toList⟩ rootTag cb
      = some { Name := rootTag.Name, Attributes := rootTag.Attributes,
               Content := cb ++ streamText tokens, Children := rootTag.Children } := by
  intro tokens
  induction tokens with
  | nil =>
    intro fuel rootTag cb hfuel _
    obtain ⟨fuel, rfl⟩ : ∃ f, fuel = f + 1 := ⟨fuel - 1, by simp at hfuel; omega⟩
    simp [ParseXMLLoop, xml.Decoder.Token, streamText]
  | cons token tokens ih =>
    intro fuel rootTag cb hfuel hno
    simp only [List.length_cons] at hfuel
    obtain ⟨fuel, rfl⟩ : ∃ f, fuel = f + 1 := ⟨fuel - 1, by omega⟩
    have hrest : ∀ t ∈ tokens, t.isStartElement = false :=
      fun t ht => hno t (List.mem_cons_of_mem _ ht)
    have hhead := hno token (List.mem_cons_self _ _)
    rw [ParseXMLLoop]
    simp only [xml.Decoder.Token]
    match token, hhead with
    | .StartElement elem, hhead => simp [xml.Token.isStartElement] at hhead
    | .CharData data, _ =>
      simp only
      split
      · rw [ih fuel rootTag _ (by omega) hrest]
        simp [streamText, *]
      · rw [ih fuel rootTag _ (by omega) hrest]
        simp [streamText, *]
    | .EndElement name, _ =>
      simp only
      rw [ih fuel rootTag _ (by omega) hrest]
      simp [streamText]
    | .Other, _ =>
      simp only
      rw [ih fuel rootTag _ (by omega) hrest]
      simp [streamText]

/-- What the source does on a pattern that is empty after trimming, for a node
with a non-empty name: the pattern gives the single empty step, which goes to
the name loop. When no child has an empty name the resolution fails with the
tag-not-found error for the empty name and `Find` returns the zero node; when
some child has an empty name the first such child is returned. The branch for
no remaining steps is not reached. -/
theorem searchInTag_empty_step (node : XMLTag) (p : GoString) (hname : node.Name ≠ [])
    (hp : strings.Trim p "/".toList = []) :
    parsePattern p = [[]] ∧
    ((∀ c ∈ node.Children, c.Name ≠ []) →
      searchInTag node p = (XMLTag.zero, some ("тег ".toList ++ [] ++ " не найден".toList)) ∧
      node.Find p = XMLTag.zero) ∧
    (∀ before c after, node.Children = before ++ c :: after → c.Name = [] →
      (∀ x ∈ before, x.Name ≠ []) → searchInTag node p = (c, none) ∧ node.Find p = c) := by
  have hparse : parsePattern p = [[]] := by
    rw [parsePattern]
    simp only [hp]
    rfl
  have hn : (node.Name == []) = false := by simpa using hname
  have hstep := findTagByPattern_name_step node [] [] (by rfl) (by rfl)
  refine ⟨hparse, ?_, ?_⟩
  · intro hnone
    have hfind : node.Children.find? (fun child => child.Name == []) = none := by
      rw [List.find?_eq_none]
      intro c hc
      simpa using hnone c hc
    rw [hfind] at hstep
    unfold XMLTag.Find searchInTag
    simp only [hn, Bool.false_eq_true, if_false, hparse, hstep, and_self]
  · intro before c after hchildren hc hbefore
    rw [hchildren, find_first_named [] before after c hc hbefore] at hstep
    have hbase : findTagByPattern c [] = (c, none) := by rw [findTagByPattern]
    simp only [hbase] at hstep
    unfold XMLTag.Find searchInTag
    simp only [hn, Bool.false_eq_true, if_false, hparse, hstep, and_self]

/-! ## The outer level of the token stream -/

/-- When the loop of `parseXMLElement` returns a tag without error, it has not
looked past the tokens it read: with more fuel, more tokens behind and another
final error it returns the same tag and leaves the further tokens. -/
theorem parseXMLElementLoop_frame : ∀ (fuel : Nat) (tokens : List xml.Token) (err0 : GoString)
    (tag : XMLTag) (cb : GoString) (child : XMLTag) (rest : List xml.Token) (e : GoString),
    parseXMLElementLoop fuel ⟨tokens, err0⟩ tag cb = some ((child, none), ⟨rest, e⟩) →
    ∀ (fuel2 : Nat) (more : List xml.Token) (err : GoString), fuel ≤ fuel2 →
      parseXMLElementLoop fuel2 ⟨tokens ++ more, err⟩ tag cb
        = some ((child, none), ⟨rest ++ more, err⟩) := by
  intro fuel
  induction fuel with
  | zero =>
    intro tokens err0 tag cb child rest e h
    rw [parseXMLElementLoop] at h
    exact absurd h (by simp)
  | succ fuel ih =>
    intro tokens err0 tag cb child rest e h fuel2 more err hle
    obtain ⟨fuel2, rfl⟩ : ∃ f, fuel2 = f + 1 := ⟨fuel2 - 1, by omega⟩
    have hle2 : fuel ≤ fuel2 := by omega
    match tokens with
    | [] =>
      rw [parseXMLElementLoop] at h
      simp [xml.Decoder.Token] at h
    | token :: tokens =>
      rw [parseXMLElementLoop] at h
      simp only [xml.Decoder.Token] at h
      rw [List.cons_append, parseXMLElementLoop]
      simp only [xml.Decoder.Token]
      match token with
      | .StartElement elem =>
        simp only at h ⊢
        cases hr : parseXMLElementLoop fuel ⟨tokens, err0⟩ (startTag elem) [] with
        | none => rw [hr] at h; exact absurd h (by simp)
        | some r =>
          obtain ⟨⟨c, cerr⟩, ⟨rest2, e2⟩⟩ := r
          rw [hr] at h
          match cerr with
          | some x => simp at h
          | none =>
            simp only at h
            rw [ih tokens err0 (startTag elem) [] c rest2 e2 hr fuel2 more err hle2]
            simp only
            exact ih rest2 e2 _ cb child rest e h fuel2 more err hle2
      | .CharData data =>
        simp only at h ⊢
        split
        · rename_i hpos
          rw [if_pos hpos] at h
          exact ih tokens err0 tag _ child rest e h fuel2 more err hle2
        · rename_i hneg
          rw [if_neg hneg] at h
          exact ih tokens err0 tag _ child rest e h fuel2 more err hle2
      | .EndElement name =>
        simp only at h ⊢
        split
        · rename_i hpos
          rw [if_pos hpos] at h
          simp only [Option.some.injEq, Prod.mk.injEq, xml.Decoder.mk.injEq, and_true] at h
          obtain ⟨hchild, hrest, _⟩ := h
          rw [← hchild, ← hrest]
        · rename_i hneg
          rw [if_neg hneg] at h
          exact ih tokens err0 tag _ child rest e h fuel2 more err hle2
      | .Other =>
        simp only at h ⊢
        exact ih tokens err0 tag _ child rest e h fuel2 more err hle2

theorem outerTokens_nil : outerTokens [] = [] := rfl

theorem outerTokens_cons (p : OuterPiece) (pieces : List OuterPiece) :
    outerTokens (p :: pieces) = p.tokens ++ outerTokens pieces := by
  simp [outerTokens]

/-- The loop of `ParseXML` in front of tokens without a start element followed
by any further tokens: the root stays as it is, the trimmed texts go to the
builder, and the loop goes on with the further tokens. -/
theorem ParseXMLLoop_skip : ∀ (tokens : List xml.Token) (fuel : Nat) (more : List xml.Token)
    (err : GoString) (rootTag : XMLTag) (cb : GoString), tokens.length ≤ fuel →
    (∀ t ∈ tokens, t.isStartElement = false) →
    ParseXMLLoop fuel ⟨tokens ++ more, err⟩ rootTag cb
      = ParseXMLLoop (fuel - tokens.length) ⟨more, err⟩ rootTag (cb ++ streamText tokens) := by
  intro tokens
  induction tokens with
  | nil =>
    intro fuel more err rootTag cb _ _
    simp [streamText]
  | cons token tokens ih =>
    intro fuel more err rootTag cb hfuel hno
    simp only [List.length_cons] at hfuel
    obtain ⟨fuel, rfl⟩ : ∃ f, fuel = f + 1 := ⟨fuel - 1, by omega⟩
    have hsub : fuel + 1 - (token :: tokens).length = fuel - tokens.length := by simp
    have hrest : ∀ t ∈ tokens, t.isStartElement = false :=
      fun t ht => hno t (List.mem_cons_of_mem _ ht)
    have hhead := hno token (List.mem_cons_self _ _)
    rw [hsub, List.cons_append, ParseXMLLoop]
    simp only [xml.Decoder.Token]
    match token, hhead with
    | .StartElement elem, hhead => simp [xml.Token.isStartElement] at hhead
    | .CharData data, _ =>
      simp only
      split
      · rw [ih fuel more err rootTag _ (by omega) hrest]
        simp [streamText, *]
      · rw [ih fuel more err rootTag _ (by omega) hrest]
        simp [streamText, *]
    | .EndElement name, _ =>
      simp only
      rw [ih fuel more err rootTag _ (by omega) hrest]
      simp [streamText]
    | .Other, _ =>
      simp only
      rw [ih fuel more err rootTag _ (by omega) hrest]
      simp [streamText]

/-- The loop of `ParseXML`, once the root is named, in front of complete outer
pieces followed by any further tokens: one round per piece; the children of
the pieces are appended to the root's children, their contents to the
builder, and the loop goes on with the further tokens. -/
theorem ParseXMLLoop_outer : ∀ (pieces : List OuterPiece) (fuel : Nat) (more : List xml.Token)
    (err : GoString) (rootTag : XMLTag) (cb : GoString), rootTag.Name ≠ [] →
    (∀ p ∈ pieces, p.Complete) → (outerTokens pieces).length + 1 ≤ fuel →
    ParseXMLLoop fuel ⟨outerTokens pieces ++ more, err⟩ rootTag cb
      = ParseXMLLoop (fuel - pieces.length) ⟨more, err⟩
          { Name := rootTag.Name, Attributes := rootTag.Attributes,
            Content := rootTag.Content,
            Children := rootTag.Children ++ (pieces.map OuterPiece.children).flatten }
          (cb ++ (pieces.map OuterPiece.content).flatten) := by
  intro pieces
  induction pieces with
  | nil =>
    intro fuel more err rootTag cb _ _ _
    obtain ⟨n, a, c, ch⟩ := rootTag
    simp [outerTokens_nil]
  | cons p rest ih =>
    intro fuel more err rootTag cb hname hcomplete hfuel
    obtain ⟨fuel, rfl⟩ : ∃ f, fuel = f + 1 := ⟨fuel - 1, by omega⟩
    have hsub : fuel + 1 - (p :: rest).length = fuel - rest.length := by simp
    have hrest : ∀ q ∈ rest, q.Complete := fun q hq => hcomplete q (List.mem_cons_of_mem _ hq)
    have hp := hcomplete p (List.mem_cons_self _ _)
    have hn : (rootTag.Name == []) = false := by simpa using hname
    rw [hsub, outerTokens_cons] at *
    match p, hp with
    | .token (.StartElement elem), hp => simp [OuterPiece.Complete, xml.Token.isStartElement] at hp
    | .token (.CharData data), _ =>
      simp only [OuterPiece.tokens, List.singleton_append, List.length_cons] at hfuel ⊢
      rw [List.cons_append, ParseXMLLoop]
      simp only [xml.Decoder.Token]
      split
      · rw [ih fuel more err rootTag _ hname hrest (by omega)]
        simp [OuterPiece.children, OuterPiece.content, *]
      · rw [ih fuel more err rootTag _ hname hrest (by omega)]
        simp [OuterPiece.children, OuterPiece.content, *]
    | .token (.EndElement name), _ =>
      simp only [OuterPiece.tokens, List.singleton_append, List.length_cons] at hfuel ⊢
      rw [List.cons_append, ParseXMLLoop]
      simp only [xml.Decoder.Token]
      rw [ih fuel more err rootTag _ hname hrest (by omega)]
      simp [OuterPiece.children, OuterPiece.content]
    | .token .Other, _ =>
      simp only [OuterPiece.tokens, List.singleton_append, List.length_cons] at hfuel ⊢
      rw [List.cons_append, ParseXMLLoop]
      simp only [xml.Decoder.Token]
      rw [ih fuel more err rootTag _ hname hrest (by omega)]
      simp [OuterPiece.children, OuterPiece.content]
    | .element elem inner child, hp =>
      simp only [OuterPiece.tokens, List.cons_append, List.length_cons,
        List.length_append] at hfuel ⊢
      rw [List.append_assoc, ParseXMLLoop]
      simp only [xml.Decoder.Token, hn, Bool.false_eq_true, if_false]
      have hinner := parseXMLElementLoop_frame (inner.length + 1) inner "EOF".toList
        (startTag elem) [] child [] "EOF".toList hp fuel (outerTokens rest ++ more) err
        (by omega)
      rw [List.nil_append] at hinner
      rw [parseXMLElement, hinner]
      simp only []
      have hnext := ih fuel more err
        { Name := rootTag.Name, Attributes := rootTag.Attributes, Content := rootTag.Content,
          Children := rootTag.Children ++ [child] }
        (cb ++ serializeStartElement elem ++ child.Content
          ++ ("</".toList ++ elem.Name ++ ">".toList)) hname hrest (by omega)
      have hser : serializeStartElement elem = openTag elem.Name elem.Attr :=
        serializeStartElement_eq_openTag elem.Name elem.Attr
      rw [hnext]
      simp [OuterPiece.children, OuterPiece.content, hser]

/-- The element of a document piece, with the tokens of its body and its end
element, is a complete outer piece for the node expected for it. -/
theorem OuterPiece.complete_of_item (name : GoString) (attrs : List xml.Attr)
    (body : List Item) :
    (OuterPiece.element ⟨name, attrs⟩ (Item.tokensList body ++ [xml.Token.EndElement name])
      { Name := name, Attributes := attrMap attrs, Content := directText body,
        Children := Item.nodesList body }).Complete := by
  have h := parseXMLElementLoop_body
    ((Item.tokensList body ++ [xml.Token.EndElement name]).length + 1)
    body [] "EOF".toList (startTag ⟨name, attrs⟩) [] (by simp)
  simpa [OuterPiece.Complete, parseXMLElement, startTag] using h

/-! ## The claims -/

/-- C1: for a document whose element names are all non-empty and whose opening
tags carry attributes with pairwise distinct names, `ParseXML` on its
depth-first token sequence, read to a clean end, returns a tree of the same
shape: at every level the node is named after the element, its attribute map
has exactly the name/value pairs of that element's own opening tag, and its
children are the nodes of the child elements in document order. -/
theorem ParseXML_same_shape (name : GoString) (attrs : List xml.Attr) (body : List Item)
    (hwf : Item.wellNamed (.elem name attrs body) = true) :
    ∃ t, ParseXML ⟨Item.tokens (.elem name attrs body), "EOF".toList⟩ = some t ∧
      Item.EveryLevel SameNameAndAttributes (.elem name attrs body) t := by
  rw [Item.wellNamed] at hwf
  simp only [Bool.and_eq_true, decide_eq_true_eq, Bool.not_eq_true', List.isEmpty_eq_false] at hwf
  refine ⟨_, ParseXML_document name attrs body ?_, ?_⟩
  · intro h; simp [h] at hwf
  · rw [Item.EveryLevel]
    exact ⟨⟨rfl, attrMap_get_iff attrs hwf.1.2⟩, Item.everyLevel_shape body hwf.2⟩

/-- C1 at `<a x="1"><b>hi</b><c/></a>`: root `a` with `x -> 1` and the children
`b`, `c` in that order. -/
theorem ParseXML_same_shape_witness :
    Item.wellNamed exampleDoc = true ∧
    (∃ t, ParseXML ⟨Item.tokens exampleDoc, "EOF".toList⟩ = some t ∧
      Item.EveryLevel SameNameAndAttributes exampleDoc t) ∧
    ParseXML ⟨Item.tokens exampleDoc, "EOF".toList⟩ = some exampleTree :=
  ⟨by decide, ParseXML_same_shape "a".toList [⟨"x".toList, "1".toList⟩]
    [.elem "b".toList [] [.text "hi".toList], .elem "c".toList [] []] (by decide), by rfl⟩

/-- C2: on the token sequence of a document with one root of non-empty name,
read to a clean end, `ParseXML` returns a node whose name is non-empty and
whose number of children is the number of elements lying directly inside the
root. -/
theorem ParseXML_children_count (name : GoString) (attrs : List xml.Attr) (body : List Item)
    (hname : name ≠ []) :
    ∃ t, ParseXML ⟨Item.tokens (.elem name attrs body), "EOF".toList⟩ = some t ∧
      t.Name ≠ [] ∧ t.Children.length = body.countP Item.isElem :=
  ⟨_, ParseXML_document name attrs body hname, hname, Item.length_nodesList body⟩

/-- C2 at `<a x="1"><b>hi</b><c/></a>`: two children. -/
theorem ParseXML_children_count_witness :
    "a".toList ≠ [] ∧
    ∃ t, ParseXML ⟨Item.tokens exampleDoc, "EOF".toList⟩ = some t ∧
      t.Name ≠ [] ∧ t.Children.length = 2 :=
  ⟨by decide, ParseXML_children_count "a".toList [⟨"x".toList, "1".toList⟩]
    [.elem "b".toList [] [.text "hi".toList], .elem "c".toList [] []] (by decide)⟩

/-- C3: on the token sequence of a document with one root of non-empty name,
read to a clean end, the content of the node `ParseXML` returns is the
concatenation, in document order, of one piece per item directly under the
root (`rootContent`): the reconstructed opening tag, the child's own content
and the closing tag for a child element, the trimmed text for a text segment.
The contents of the children are the direct texts used in these pieces. -/
theorem ParseXML_root_content (name : GoString) (attrs : List xml.Attr) (body : List Item)
    (hname : name ≠ []) :
    ∃ t, ParseXML ⟨Item.tokens (.elem name attrs body), "EOF".toList⟩ = some t ∧
      t.Content = rootContent body ∧ t.Children.map XMLTag.Content = childTexts body :=
  ⟨_, ParseXML_document name attrs body hname, rfl, Item.content_nodesList body⟩

/-- C3 at `<a x="1"><b>hi</b><c/></a>`: the root content is
`<b>hi</b><c></c>`. -/
theorem ParseXML_root_content_witness :
    "a".toList ≠ [] ∧
    ∃ t, ParseXML ⟨Item.tokens exampleDoc, "EOF".toList⟩ = some t ∧
      t.Content = "<b>hi</b><c></c>".toList ∧
      t.Children.map XMLTag.Content = ["hi".toList, []] :=
  ⟨by decide, ParseXML_root_content "a".toList [⟨"x".toList, "1".toList⟩]
    [.elem "b".toList [] [.text "hi".toList], .elem "c".toList [] []] (by decide)⟩

/-- C4: in the tree `ParseXML` returns for a document, every node below the
root, at every depth, has as content the concatenation in document order of
the trimmed non-empty text segments lying directly inside its element; its
child elements contribute nothing. -/
theorem ParseXML_nested_content (name : GoString) (attrs : List xml.Attr) (body : List Item)
    (hname : name ≠ []) :
    ∃ t, ParseXML ⟨Item.tokens (.elem name attrs body), "EOF".toList⟩ = some t ∧
      Item.EveryLevelList ContentIsDirectText body t.Children :=
  ⟨_, ParseXML_document name attrs body hname, Item.everyLevel_content body⟩

/-- C4 at `<a><b>x<c>y</c>z</b></a>`: node `b` has content `xz` and node `c`
has content `y`. -/
theorem ParseXML_nested_content_witness :
    "a".toList ≠ [] ∧
    (∃ t, ParseXML ⟨Item.tokens nestedDoc, "EOF".toList⟩ = some t ∧
      Item.EveryLevelList ContentIsDirectText
        [.elem "b".toList [] [.text "x".toList, .elem "c".toList [] [.text "y".toList],
          .text "z".toList]] t.Children) ∧
    ParseXML ⟨Item.tokens nestedDoc, "EOF".toList⟩ = some nestedTree :=
  ⟨by decide, ParseXML_nested_content "a".toList []
    [.elem "b".toList [] [.text "x".toList, .elem "c".toList [] [.text "y".toList],
      .text "z".toList]] (by decide), by rfl⟩

/-- C5: when the tokenizer ends with an error other than the clean end of the
stream, `ParseXML` returns the zero node, whatever tokens came before the
error and wherever the error is met. -/
theorem ParseXML_error_zero (tokens : List xml.Token) (err : GoString)
    (herr : err ≠ "EOF".toList) :
    ParseXML ⟨tokens, err⟩ = some XMLTag.zero :=
  ParseXMLLoop_error _ ⟨tokens, err⟩ XMLTag.zero [] (Nat.lt_succ_self _) herr

/-- C5 on `<a><b></b>` cut short by a syntax error: two elements were read,
the result is the zero node. -/
theorem ParseXML_error_zero_witness :
    "unexpected EOF".toList ≠ "EOF".toList ∧
    ParseXML ⟨[.StartElement ⟨"a".toList, []⟩, .StartElement ⟨"b".toList, []⟩,
      .EndElement "b".toList], "unexpected EOF".toList⟩ = some XMLTag.zero :=
  ⟨by decide, ParseXML_error_zero _ _ (by decide)⟩

/-- C6: for a step `s` that does not begin with `@` and is not
bracket-delimited, when some child is named `s`, `findTagByPattern` on
`s :: rest` is `findTagByPattern` on the first such child in document order
with `rest`; in particular a failure inside that first child is the failure of
the whole resolution, later children named `s` are not tried. -/
theorem findTagByPattern_first_named_child (node : XMLTag) (s : GoString)
    (rest : List GoString) (before after : List XMLTag) (c : XMLTag)
    (hat : strings.HasPrefix s "@".toList = false)
    (hbr : (strings.HasPrefix s "[".toList && strings.HasSuffix s "]".toList) = false)
    (hchildren : node.Children = before ++ c :: after)
    (hc : c.Name = s) (hbefore : ∀ x ∈ before, x.Name ≠ s) :
    findTagByPattern node (s :: rest) = findTagByPattern c rest ∧
    ((findTagByPattern c rest).2 ≠ none → (findTagByPattern node (s :: rest)).2 ≠ none) := by
  have h : findTagByPattern node (s :: rest) = findTagByPattern c rest := by
    rw [findTagByPattern_name_step node s rest hat hbr, hchildren,
      find_first_named s before after c hc hbefore]
  exact ⟨h, fun hne => by rw [h]; exact hne⟩

/-- C6 on `<a><b/><b><d/></b></a>` with the steps `b`, `d`: the first `b` is
entered and has no `d`, so the resolution fails although the second `b` has
one. -/
theorem findTagByPattern_first_named_child_witness :
    (findTagByPattern twoNamedB ["b".toList, "d".toList]
        = findTagByPattern firstB ["d".toList] ∧
      ((findTagByPattern firstB ["d".toList]).2 ≠ none →
        (findTagByPattern twoNamedB ["b".toList, "d".toList]).2 ≠ none)) ∧
    findTagByPattern twoNamedB ["b".toList, "d".toList]
      = (XMLTag.zero, some "тег d не найден".toList) ∧
    (findTagByPattern secondB ["d".toList]).2 = none :=
  ⟨findTagByPattern_first_named_child twoNamedB "b".toList ["d".toList] [] [secondB] firstB
    (by decide) (by decide) rfl rfl (by simp), by rfl, by rfl⟩

/-- C7: for a node whose children are `c_0 .. c_(n-1)` and `k < n`,
`findTagByPattern` on the step `[k]` (the decimal rendering of `k` between
brackets) followed by `rest` is `findTagByPattern` on `c_k` with `rest`. The
number of children is an `int` in Go, hence at most `maxInt`. -/
theorem findTagByPattern_index_step (node : XMLTag) (k : Nat) (rest : List GoString)
    (hk : k < node.Children.length)
    (hlen : (node.Children.length : Int) ≤ strconv.maxInt) :
    findTagByPattern node (("[".toList ++ Nat.toDigits 10 k ++ "]".toList) :: rest) =
      findTagByPattern (node.Children.get ⟨k, hk⟩) rest := by
  obtain ⟨hne, hdig, -⟩ := strconv.toDigits_spec k
  have hatoi := strconv.Atoi_toDigits k (by omega)
  have hstep : "[".toList ++ Nat.toDigits 10 k ++ "]".toList
      = '[' :: (Nat.toDigits 10 k ++ "]".toList) := rfl
  have hat : strings.HasPrefix ('[' :: (Nat.toDigits 10 k ++ "]".toList)) "@".toList = false := by
    rw [show "@".toList = ['@'] from rfl, strings.HasPrefix_cons_char]; decide
  have hbr : (strings.HasPrefix ('[' :: (Nat.toDigits 10 k ++ "]".toList)) "[".toList
      && strings.HasSuffix ('[' :: (Nat.toDigits 10 k ++ "]".toList)) "]".toList) = true := by
    rw [show "[".toList = ['['] from rfl, strings.HasPrefix_cons_char,
      show "]".toList = [']'] from rfl, ← List.cons_append, strings.HasSuffix_concat_char]
    decide
  have hin : 0 ≤ (k : Int) ∧ (k : Int) < (node.Children.length : Int) := by omega
  rw [hstep, findTagByPattern]
  simp only [hat, hbr, Bool.false_eq_true, if_false, if_true,
    strings.Trim_brackets _ hne hdig, parseIndex, hatoi, dif_pos hin, Int.toNat_ofNat]

/-- C7 on the tree of `<a x="1"><b>hi</b><c/></a>`: the step `[1]` selects the
node named `c`. -/
theorem findTagByPattern_index_step_witness :
    (1 < exampleTree.Children.length ∧
      (exampleTree.Children.length : Int) ≤ strconv.maxInt) ∧
    findTagByPattern exampleTree [("[".toList ++ Nat.toDigits 10 1 ++ "]".toList)]
      = findTagByPattern
          { Name := "c".toList, Attributes := some [], Content := [], Children := [] } [] ∧
    (exampleTree.Find "[1]".toList).Name = "c".toList :=
  ⟨⟨by decide, by decide⟩,
    findTagByPattern_index_step exampleTree 1 [] (by decide) (by decide), by rfl⟩

/-- C8: for a step `@attr` and any remaining steps, when the node's attribute
map has the key `attr` with value `v`, `findTagByPattern` succeeds with the
node whose content is `v` and whose name, attributes and children are zero;
when the map has no key `attr`, it fails with the attribute-not-found error
whose message carries `attr`. -/
theorem findTagByPattern_attribute_step (node : XMLTag) (attr : GoString)
    (rest : List GoString) :
    (∀ v, node.Attributes.get attr = some v →
      findTagByPattern node (("@".toList ++ attr) :: rest)
        = ({ Name := [], Attributes := none, Content := v, Children := [] }, none)) ∧
    (node.Attributes.get attr = none →
      findTagByPattern node (("@".toList ++ attr) :: rest)
        = (XMLTag.zero, some ("атрибут ".toList ++ attr ++ " не найден".toList))) := by
  have hstep : "@".toList ++ attr = '@' :: attr := rfl
  have hat : strings.HasPrefix ('@' :: attr) "@".toList = true := by
    rw [show "@".toList = ['@'] from rfl, strings.HasPrefix_cons_char]; decide
  have htrim : strings.TrimPrefix ('@' :: attr) "@".toList = attr := by
    rw [strings.TrimPrefix, if_pos hat]; rfl
  constructor
  · intro v hv
    rw [hstep, findTagByPattern]
    simp only [hat, if_true, htrim, hv]
  · intro hnone
    rw [hstep, findTagByPattern]
    simp only [hat, if_true, htrim, hnone]

/-- C8 on the tree of `<a x="1"><b>hi</b><c/></a>`: `@x` gives content `1` and
an empty name, `@y` fails naming `y`. -/
theorem findTagByPattern_attribute_step_witness :
    (exampleTree.Attributes.get "x".toList = some "1".toList ∧
      findTagByPattern exampleTree ["@x".toList]
        = ({ Name := [], Attributes := none, Content := "1".toList, Children := [] }, none)) ∧
    (exampleTree.Attributes.get "y".toList = none ∧
      findTagByPattern exampleTree ["@y".toList]
        = (XMLTag.zero, some "атрибут y не найден".toList)) ∧
    (exampleTree.Find "@x".toList).Content = "1".toList ∧
    (exampleTree.Find "@x".toList).Name = [] :=
  ⟨⟨by rfl, (findTagByPattern_attribute_step exampleTree "x".toList []).1 "1".toList (by rfl)⟩,
    ⟨by rfl, (findTagByPattern_attribute_step exampleTree "y".toList []).2 (by rfl)⟩,
    by rfl, by rfl⟩

/-- C9: `Find` returns the zero node whenever `searchInTag` fails, and
whenever `searchInTag` succeeds it returns the node `searchInTag` returned,
which is the node `findTagByPattern` produced on the steps of `parsePattern`. -/
theorem Find_searchInTag (tag : XMLTag) (pattern : GoString) :
    (∀ err, (searchInTag tag pattern).2 = some err → tag.Find pattern = XMLTag.zero) ∧
    ((searchInTag tag pattern).2 = none →
      tag.Find pattern = (searchInTag tag pattern).1 ∧
      tag.Find pattern = (findTagByPattern tag (parsePattern pattern)).1) := by
  unfold XMLTag.Find searchInTag
  by_cases hname : (tag.Name == []) = true
  · simp [hname]
  · simp only [hname, Bool.false_eq_true, if_false]
    generalize findTagByPattern tag (parsePattern pattern) = r
    obtain ⟨result, e⟩ := r
    cases e <;> simp

/-- C9 on the tree of `<a x="1"><b>hi</b><c/></a>`: `z` fails and `Find` gives
the zero node; `b` succeeds and `Find` gives the node `b`. -/
theorem Find_searchInTag_witness :
    ((searchInTag exampleTree "z".toList).2 = some "тег z не найден".toList ∧
      exampleTree.Find "z".toList = XMLTag.zero) ∧
    ((searchInTag exampleTree "b".toList).2 = none ∧
      exampleTree.Find "b".toList = (searchInTag exampleTree "b".toList).1 ∧
      exampleTree.Find "b".toList
        = (findTagByPattern exampleTree (parsePattern "b".toList)).1) :=
  ⟨⟨by rfl, (Find_searchInTag exampleTree "z".toList).1 _ (by rfl)⟩,
    ⟨by rfl, (Find_searchInTag exampleTree "b".toList).2 (by rfl)⟩⟩

/-- C10: for a step `s` that does not begin with `@` and is not
bracket-delimited, when no child of the node is named `s`, `findTagByPattern`
on `s :: rest` fails with the tag-not-found error whose message carries `s`. -/
theorem findTagByPattern_name_not_found (node : XMLTag) (s : GoString)
    (rest : List GoString)
    (hat : strings.HasPrefix s "@".toList = false)
    (hbr : (strings.HasPrefix s "[".toList && strings.HasSuffix s "]".toList) = false)
    (hnone : ∀ c ∈ node.Children, c.Name ≠ s) :
    findTagByPattern node (s :: rest)
      = (XMLTag.zero, some ("тег ".toList ++ s ++ " не найден".toList)) := by
  have hfind : node.Children.find? (fun child => child.Name == s) = none := by
    rw [List.find?_eq_none]
    intro c hc
    simpa using hnone c hc
  rw [findTagByPattern_name_step node s rest hat hbr, hfind]

/-- C10 on the tree of `<a x="1"><b>hi</b><c/></a>`: the pattern `z` fails
with the error naming `z`. -/
theorem findTagByPattern_name_not_found_witness :
    (∀ c ∈ exampleTree.Children, c.Name ≠ "z".toList) ∧
    findTagByPattern exampleTree ["z".toList]
      = (XMLTag.zero, some "тег z не найден".toList) ∧
    searchInTag exampleTree "z".toList = (XMLTag.zero, some "тег z не найден".toList) :=
  ⟨by simp [exampleTree],
    findTagByPattern_name_not_found exampleTree "z".toList [] (by decide) (by decide)
      (by simp [exampleTree]), by rfl⟩

/-- C11: for an index step `[N]` whose interior is accepted as the integer `N`,
when `N < 0` or `N` is not below the number of children, `findTagByPattern`
fails with the index error whose message carries `N`, whatever the remaining
steps are. -/
theorem findTagByPattern_index_not_found (node : XMLTag) (interior : GoString)
    (N : Int) (rest : List GoString) (hparse : strconv.Atoi interior = some N)
    (hout : N < 0 ∨ (node.Children.length : Int) ≤ N) :
    findTagByPattern node (("[".toList ++ interior ++ "]".toList) :: rest)
      = (XMLTag.zero,
          some ("тег с индексом ".toList ++ strconv.formatInt N ++ " не найден".toList)) := by
  obtain ⟨hat, hbr⟩ := bracketed_step interior
  obtain ⟨hne, hhead, hlast⟩ := strconv.Atoi_some_ends interior N hparse
  have htrim : strings.Trim ("[".toList ++ interior ++ "]".toList) "[]".toList = interior :=
    strings.Trim_brackets_of_ends interior hne hhead hlast
  have hnot : ¬ (0 ≤ N ∧ N < (node.Children.length : Int)) := by omega
  rw [findTagByPattern_bracket_step node _ rest hat hbr, htrim]
  simp only [parseIndex, hparse, dif_neg hnot]

/-- C11 at the step `[5]` on the tree of `<a x="1"><b>hi</b><c/></a>`, which has
two children. -/
theorem findTagByPattern_index_not_found_witness :
    (strconv.Atoi "5".toList = some 5 ∧ (exampleTree.Children.length : Int) ≤ 5) ∧
    findTagByPattern exampleTree ["[5]".toList]
      = (XMLTag.zero, some "тег с индексом 5 не найден".toList) :=
  ⟨⟨by rfl, by decide⟩,
    findTagByPattern_index_not_found exampleTree "5".toList 5 [] (by rfl) (Or.inr (by decide))⟩

/-- C12, as stated, fails: the step `[[1]]` begins with `[` and ends with `]`,
the text between its opening and closing bracket, `[1]`, is not an integer,
and yet on the tree of `<a x="1"><b>hi</b><c/></a>` the step resolves to the
child at index 1 without any error, because all brackets are trimmed. -/
theorem findTagByPattern_invalid_index_counterexample :
    (strings.HasPrefix "[[1]]".toList "@".toList = false ∧
      (strings.HasPrefix "[[1]]".toList "[".toList
        && strings.HasSuffix "[[1]]".toList "]".toList) = true ∧
      "[[1]]".toList = "[".toList ++ "[1]".toList ++ "]".toList ∧
      strconv.Atoi "[1]".toList = none) ∧
    findTagByPattern exampleTree ["[[1]]".toList] = (exampleC, none) ∧
    findTagByPattern exampleTree ["[[1]]".toList]
      ≠ (XMLTag.zero, some ("неверный формат индекса: ".toList ++ "[1]".toList)) := by
  refine ⟨⟨by rfl, by rfl, by rfl, by rfl⟩, by rfl, ?_⟩
  intro h
  have h2 : (findTagByPattern exampleTree ["[[1]]".toList]).2 = none := by rfl
  rw [h] at h2
  exact absurd h2 (by simp)

/-- C12, amended: for a step that begins with `[`, ends with `]` and does not
begin with `@`, when the step with all its leading and trailing brackets
removed is not accepted as a base-10 `int`, `findTagByPattern` fails with the
invalid-index-format error whose message carries that trimmed text, whatever
the remaining steps are. -/
theorem findTagByPattern_invalid_index (node : XMLTag) (s : GoString) (rest : List GoString)
    (hat : strings.HasPrefix s "@".toList = false)
    (hbr : (strings.HasPrefix s "[".toList && strings.HasSuffix s "]".toList) = true)
    (hbad : strconv.Atoi (strings.Trim s "[]".toList) = none) :
    findTagByPattern node (s :: rest)
      = (XMLTag.zero,
          some ("неверный формат индекса: ".toList ++ strings.Trim s "[]".toList)) := by
  rw [findTagByPattern_bracket_step node s rest hat hbr]
  simp only [parseIndex, hbad]

/-- C12, amended, at the steps `[]` and `[x]` on the tree of
`<a x="1"><b>hi</b><c/></a>`. -/
theorem findTagByPattern_invalid_index_witness :
    (strconv.Atoi (strings.Trim "[]".toList "[]".toList) = none ∧
      findTagByPattern exampleTree ["[]".toList, "b".toList]
        = (XMLTag.zero, some "неверный формат индекса: ".toList)) ∧
    (strconv.Atoi (strings.Trim "[x]".toList "[]".toList) = none ∧
      findTagByPattern exampleTree ["[x]".toList]
        = (XMLTag.zero, some "неверный формат индекса: x".toList)) :=
  ⟨⟨by rfl, findTagByPattern_invalid_index exampleTree "[]".toList ["b".toList]
      (by rfl) (by rfl) (by rfl)⟩,
    ⟨by rfl, findTagByPattern_invalid_index exampleTree "[x]".toList []
      (by rfl) (by rfl) (by rfl)⟩⟩

/-- C13, as stated, fails: on the tree of `<a x="1"><b>hi</b><c/></a>` the
pattern `@x/y` has an attribute step followed by a further step, and the
resolution succeeds with the scalar node of content `1`. -/
theorem findTagByPattern_attribute_then_more_counterexample :
    parsePattern "@x/y".toList = ["@x".toList, "y".toList] ∧
    findTagByPattern exampleTree ["@x".toList, "y".toList]
      = ({ Name := [], Attributes := none, Content := "1".toList, Children := [] }, none) ∧
    searchInTag exampleTree "@x/y".toList
      = ({ Name := [], Attributes := none, Content := "1".toList, Children := [] }, none) :=
  ⟨by rfl, by rfl, by rfl⟩

/-- C13, amended: the steps that follow an attribute step are ignored. The
result on `@attr` followed by any steps is the result on `@attr` alone: the
resolution fails exactly when the attribute does not exist on the current
node, and gives the scalar node when it exists. -/
theorem findTagByPattern_attribute_then_more (node : XMLTag) (attr : GoString)
    (rest : List GoString) :
    findTagByPattern node (("@".toList ++ attr) :: rest)
      = findTagByPattern node [("@".toList ++ attr)] ∧
    ((findTagByPattern node (("@".toList ++ attr) :: rest)).2 ≠ none
      ↔ node.Attributes.get attr = none) := by
  rw [findTagByPattern_at_step node attr rest, findTagByPattern_at_step node attr []]
  refine ⟨rfl, ?_⟩
  cases node.Attributes.get attr <;> simp

/-- C13, amended, on the tree of `<a x="1"><b>hi</b><c/></a>`: `@x/y` gives what
`@x` gives, `@y/b` fails as `@y` does. -/
theorem findTagByPattern_attribute_then_more_witness :
    findTagByPattern exampleTree ["@x".toList, "y".toList]
      = findTagByPattern exampleTree ["@x".toList] ∧
    (findTagByPattern exampleTree ["@y".toList, "b".toList]).2
      = some "атрибут y не найден".toList :=
  ⟨(findTagByPattern_attribute_then_more exampleTree "x".toList ["y".toList]).1, by rfl⟩

/-- C16: on a node whose name is empty `Find` returns the zero node, whatever
the pattern and whatever else the node holds. -/
theorem Find_empty_name (tag : XMLTag) (pattern : GoString) (hname : tag.Name = []) :
    tag.Find pattern = XMLTag.zero := by
  unfold XMLTag.Find searchInTag
  simp [hname]

/-- C16 on the scalar node an attribute step returned, and on the result of a
failed parse. -/
theorem Find_empty_name_witness :
    ((exampleTree.Find "@x".toList).Name = [] ∧
      (exampleTree.Find "@x".toList).Content = "1".toList ∧
      (exampleTree.Find "@x".toList).Find "b".toList = XMLTag.zero) ∧
    XMLTag.zero.Find "b".toList = XMLTag.zero :=
  ⟨⟨by rfl, by rfl, Find_empty_name (exampleTree.Find "@x".toList) "b".toList (by rfl)⟩,
    by rfl⟩

/-- C19: on a node with a non-empty name whose attribute `x` has the empty
string as value, the resolution of `@x` succeeds and `Find` returns the zero
node, the very value `Find` returns on a node where the attribute is missing
and the resolution fails. -/
theorem Find_empty_attribute (node other : XMLTag)
    (hname : node.Name ≠ []) (hattr : node.Attributes.get "x".toList = some [])
    (hother : other.Name ≠ []) (hmissing : other.Attributes.get "x".toList = none) :
    (searchInTag node "@x".toList).2 = none ∧ node.Find "@x".toList = XMLTag.zero ∧
    (searchInTag other "@x".toList).2 ≠ none ∧ other.Find "@x".toList = XMLTag.zero := by
  have hp : parsePattern "@x".toList = ["@".toList ++ "x".toList] := by rfl
  have h1 : (node.Name == []) = false := by simpa using hname
  have h2 : (other.Name == []) = false := by simpa using hother
  unfold XMLTag.Find searchInTag
  simp only [h1, h2, Bool.false_eq_true, if_false, hp, findTagByPattern_at_step, hattr, hmissing]
  simp [XMLTag.zero]

/-- C19 on the trees of `<a x=""/>` and `<a/>`. -/
theorem Find_empty_attribute_witness :
    (emptyAttrTree.Attributes.get "x".toList = some [] ∧
      noAttrTree.Attributes.get "x".toList = none) ∧
    ((searchInTag emptyAttrTree "@x".toList).2 = none ∧
      emptyAttrTree.Find "@x".toList = XMLTag.zero ∧
      (searchInTag noAttrTree "@x".toList).2 ≠ none ∧
      noAttrTree.Find "@x".toList = XMLTag.zero) :=
  ⟨⟨by rfl, by rfl⟩,
    Find_empty_attribute emptyAttrTree noAttrTree (by decide) (by rfl) (by decide) (by rfl)⟩

/-- C14, as stated, fails: for `//a` the source gives the single step `a`, while
stripping one separator at each end and splitting gives the steps `""` and
`a`. -/
theorem parsePattern_strip_counterexample :
    parsePattern "//a".toList = ["a".toList] ∧
    parsePatternOneSlash "//a".toList = [[], "a".toList] ∧
    parsePattern "//a".toList ≠ parsePatternOneSlash "//a".toList := by
  refine ⟨by rfl, by rfl, ?_⟩
  intro h
  have h2 : (parsePattern "//a".toList).length = (parsePatternOneSlash "//a".toList).length :=
    congrArg List.length h
  revert h2
  decide

/-- C14, amended: `parsePattern p` is the result of removing all leading and
all trailing `/` from `p` and splitting what is left on `/` verbatim. What is
left is `p` without a run of `/` at its start and a run of `/` at its end, and
neither begins nor ends with `/`; so `//a` yields the single step `a`. -/
theorem parsePattern_strips_all (p : GoString) :
    parsePattern p = splitSlash (stripAllSlashes p) ∧
    (∃ n m, p = List.replicate n '/' ++ stripAllSlashes p ++ List.replicate m '/') ∧
    (stripAllSlashes p).head? ≠ some '/' ∧ (stripAllSlashes p).getLast? ≠ some '/' :=
  ⟨parsePattern_eq p, stripAllSlashes_spec p⟩

/-- C17: `parsePattern p` is a non-empty list of steps, no step contains `/`,
and joining the steps with `/` gives `p` with all its leading and trailing `/`
removed; so the resolver, called on these steps, is never called on the empty
list of steps. -/
theorem parsePattern_steps (p : GoString) :
    parsePattern p ≠ [] ∧ (∀ step ∈ parsePattern p, '/' ∉ step) ∧
    List.intercalate "/".toList (parsePattern p) = stripAllSlashes p ∧
    (∀ tag : XMLTag, ∃ step rest, findTagByPattern tag (parsePattern p)
      = findTagByPattern tag (step :: rest)) := by
  rw [parsePattern_eq]
  refine ⟨splitSlash_ne_nil _, splitSlash_no_slash _, intercalate_splitSlash _, ?_⟩
  intro tag
  cases hs : splitSlash (stripAllSlashes p) with
  | nil => exact absurd hs (splitSlash_ne_nil _)
  | cons step rest => exact ⟨step, rest, rfl⟩

/-- C15: the source at the failing input. On the tree of
`<a x="1"><b>hi</b><c/></a>`, whose name is non-empty, the patterns `""` and
`/` give the single empty step; the branch for no remaining steps would return
the current node, but the query does not reach it: the empty step goes to the
name loop, the resolver fails with tag-not-found for the empty name and `Find`
returns the zero node, not the current node. -/
theorem Find_empty_pattern_returns_zero :
    exampleTree.Name ≠ [] ∧
    parsePattern [] = [[]] ∧ parsePattern "/".toList = [[]] ∧
    findTagByPattern exampleTree [] = (exampleTree, none) ∧
    searchInTag exampleTree [] = (XMLTag.zero, some "тег  не найден".toList) ∧
    searchInTag exampleTree "/".toList = (XMLTag.zero, some "тег  не найден".toList) ∧
    exampleTree.Find [] = XMLTag.zero ∧ exampleTree.Find "/".toList = XMLTag.zero ∧
    exampleTree.Find [] ≠ exampleTree := by
  refine ⟨by decide, by rfl, by rfl, by rfl, by rfl, by rfl, by rfl, by rfl, ?_⟩
  intro h
  have h2 : (exampleTree.Find []).Name = exampleTree.Name := congrArg XMLTag.Name h
  revert h2
  decide

/-- C18, as stated, fails: on the stream start `a`, end `a`, start `b` the
start element `b` follows the first start element at the outer level, and it
is not appended to the children of `a`: the element is never closed and the
result is the zero node, whether the stream then ends cleanly or with the
tokenizer's syntax error. -/
theorem ParseXML_after_root_end_counterexample :
    ParseXML ⟨[.StartElement ⟨"a".toList, []⟩, .EndElement "a".toList,
        .StartElement ⟨"b".toList, []⟩], "EOF".toList⟩ = some XMLTag.zero ∧
    ParseXML ⟨[.StartElement ⟨"a".toList, []⟩, .EndElement "a".toList,
        .StartElement ⟨"b".toList, []⟩],
        "XML syntax error on line 1: unexpected EOF".toList⟩ = some XMLTag.zero :=
  ⟨by rfl, by rfl⟩

/-- C18, amended: `ParseXML` does not track the end of the root element. On a
stream that ends cleanly, made of tokens other than start elements, then the
first start element, of non-empty name, then outer pieces in which every
later start element at the outer level is closed, each such start element is
parsed as a subtree and appended to the first element's children, in order,
also when the first element's end element has already been read: end
elements, comments and text at the outer level do not end the root. The
content of the root is the trimmed text met before and after its start
element, with the reconstruction of each child in its place. -/
theorem ParseXML_after_root_end (before : List xml.Token) (name : GoString) (attrs : List xml.Attr)
    (pieces : List OuterPiece) (hname : name ≠ [])
    (hbefore : ∀ t ∈ before, t.isStartElement = false)
    (hpieces : ∀ p ∈ pieces, p.Complete) :
    ParseXML ⟨before ++ .StartElement ⟨name, attrs⟩ :: outerTokens pieces, "EOF".toList⟩
      = some { Name := name, Attributes := attrMap attrs,
               Content := streamText before ++ (pieces.map OuterPiece.content).flatten,
               Children := (pieces.map OuterPiece.children).flatten } := by
  have hlen : (before ++ xml.Token.StartElement ⟨name, attrs⟩ :: outerTokens pieces).length + 1
      = before.length + ((outerTokens pieces).length + 2) := by
    simp only [List.length_cons, List.length_append]
    omega
  have hpl : pieces.length ≤ (outerTokens pieces).length := by
    clear hpieces hlen
    induction pieces with
    | nil => simp
    | cons p rest ih =>
      rw [outerTokens_cons, List.length_append, List.length_cons]
      have : 1 ≤ p.tokens.length := by cases p <;> simp [OuterPiece.tokens]
      omega
  rw [ParseXML]
  simp only []
  rw [hlen, ParseXMLLoop_skip before _ _ _ _ _ (by omega) hbefore]
  have h1 : before.length + ((outerTokens pieces).length + 2) - before.length
      = ((outerTokens pieces).length + 1) + 1 := by omega
  rw [h1, ParseXMLLoop]
  simp only [xml.Decoder.Token, XMLTag.zero, beq_self_eq_true, if_true]
  have hout := ParseXMLLoop_outer pieces ((outerTokens pieces).length + 1) [] "EOF".toList
    { Name := name, Attributes := attrMap attrs, Content := [], Children := [] }
    ([] ++ streamText before) hname hpieces (by omega)
  rw [List.append_nil] at hout
  rw [hout]
  obtain ⟨g, hg⟩ : ∃ g, (outerTokens pieces).length + 1 - pieces.length = g + 1 :=
    ⟨(outerTokens pieces).length - pieces.length, by omega⟩
  rw [hg, ParseXMLLoop]
  simp [xml.Decoder.Token]

/-- C18, amended, on the token stream start `a`, end `a`, start `b`, end `b`,
clean end: the node `a` with the single child `b` and content `<b></b>`; and
on the same stream with a comment and a text in front of the root and a comment
after the end of `a`. -/
theorem ParseXML_after_root_end_witness :
    ("a".toList ≠ [] ∧
      (OuterPiece.element ⟨"b".toList, []⟩ [.EndElement "b".toList] firstB).Complete) ∧
    ParseXML ⟨[.StartElement ⟨"a".toList, []⟩, .EndElement "a".toList,
        .StartElement ⟨"b".toList, []⟩, .EndElement "b".toList], "EOF".toList⟩
      = some { Name := "a".toList, Attributes := some [], Content := "<b></b>".toList,
               Children := [firstB] } ∧
    ParseXML ⟨[.Other, .CharData " t ".toList, .StartElement ⟨"a".toList, []⟩,
        .EndElement "a".toList, .Other, .StartElement ⟨"b".toList, []⟩,
        .EndElement "b".toList], "EOF".toList⟩
      = some { Name := "a".toList, Attributes := some [], Content := "t<b></b>".toList,
               Children := [firstB] } :=
  ⟨⟨by decide, by rfl⟩,
    ParseXML_after_root_end [] "a".toList []
      [.token (.EndElement "a".toList),
        .element ⟨"b".toList, []⟩ [.EndElement "b".toList] firstB]
      (by decide) (by simp)
      (by
        intro p hp
        simp only [List.mem_cons, List.mem_singleton, List.not_mem_nil, or_false] at hp
        rcases hp with rfl | rfl <;> rfl),
    ParseXML_after_root_end [.Other, .CharData " t ".toList] "a".toList []
      [.token (.EndElement "a".toList), .token .Other,
        .element ⟨"b".toList, []⟩ [.EndElement "b".toList] firstB]
      (by decide)
      (by
        intro t ht
        simp only [List.mem_cons, List.mem_singleton, List.not_mem_nil, or_false] at ht
        rcases ht with rfl | rfl <;> rfl)
      (by
        intro p hp
        simp only [List.mem_cons, List.mem_singleton, List.not_mem_nil, or_false] at hp
        rcases hp with rfl | rfl | rfl <;> rfl)⟩

/-- C20: on a token stream without any start element that ends cleanly,
`ParseXML` returns the node with empty name, nil attributes, no children and,
as content, the concatenation of the trimmed non-empty text segments of the
stream. -/
theorem ParseXML_no_start_element (tokens : List xml.Token)
    (hno : ∀ t ∈ tokens, t.isStartElement = false) :
    ParseXML ⟨tokens, "EOF".toList⟩
      = some { Name := [], Attributes := none, Content := streamText tokens, Children := [] } := by
  rw [ParseXML, ParseXMLLoop_no_start tokens _ _ _ (Nat.lt_succ_self _) hno]
  simp [XMLTag.zero]

/-- C20 on the stream made of the text `hi`: the content is `hi`, so the
result, whose name is empty, is not the zero node. -/
theorem ParseXML_no_start_element_witness :
    ParseXML ⟨[.CharData "hi".toList], "EOF".toList⟩
      = some { Name := [], Attributes := none, Content := "hi".toList, Children := [] } ∧
    ParseXML ⟨[.CharData "hi".toList], "EOF".toList⟩ ≠ some XMLTag.zero := by
  have h := ParseXML_no_start_element [.CharData "hi".toList] (by simp [xml.Token.isStartElement])
  refine ⟨h, ?_⟩
  rw [h]
  intro hz
  have hc := congrArg (fun o => o.map XMLTag.Content) hz
  revert hc
  decide
